import Mathlib

/-!
# ComparisonGraph

A shallow embedding of `src/Interpreters/ComparisonGraph.cpp`.

* An expression handle (`ASTPtr`) is the pair of observations the code makes of
  it: `getTreeHash()` and `getColumnName()`.
* An atomic formula is an `ASTFunction` with a name and two arguments.
* `std::vector` is `List`; the hash map `ast_hash_to_component` is an
  association list, searched by key. The list is kept in insertion order,
  whereas the program's map is iterated in an order of its own: the one loop
  that iterates the map fills the member lists of the collapsed classes, so a
  member list here has the members of the program's list in another order.
  Class ids, the lookup index and the edges do not depend on that order, and
  the properties below speak of the members of a collapsed class as a set.
* The sentinels `bad_term` and `not_visited` (both `numeric_limits<size_t>::max()`)
  are `none`; no vector holds that many elements, so no index equals them.
* The recursive traversals take a fuel argument bounding the recursion depth;
  the callers pass the number of vertices.
-/

namespace DB

/-- An expression handle: the tree hash and the column name of an `ASTPtr`. -/
structure Ast where
  treeHash : Nat
  columnName : String
deriving DecidableEq, Repr

/-- The function names the graph recognises in atomic formulas. -/
inductive FunctionName where
  | equals
  | less
  | lessOrEquals
  | greater
  | greaterOrEquals
deriving DecidableEq, Repr

/-- An atomic formula: an `ASTFunction` with `arguments->children = [left, right]`. -/
structure Atom where
  name : FunctionName
  left : Ast
  right : Ast
deriving DecidableEq, Repr

/-- The type `Edge::Type`. -/
inductive EdgeType where
  | EQUAL
  | LESS
  | LESS_OR_EQUAL
deriving DecidableEq, Repr

/-- The type `ComparisonGraph::CompareResult`. -/
inductive CompareResult where
  | LESS
  | LESS_OR_EQUAL
  | EQUAL
  | GREATER_OR_EQUAL
  | GREATER
  | UNKNOWN
deriving DecidableEq, Repr

/-- The struct `Edge`; the member `to` is `to_` here. -/
structure Edge where
  type : EdgeType
  to_ : Nat
deriving DecidableEq, Repr

/-- The struct `EqualComponent`. -/
structure EqualComponent where
  asts : List Ast
deriving DecidableEq, Repr

/-- The struct `Graph`. -/
structure Graph where
  ast_hash_to_component : List (Nat × Nat)
  vertexes : List EqualComponent
  edges : List (List Edge)
deriving DecidableEq, Repr

/-- The numeric value of `numeric_limits<size_t>::max()`, that is `2 ^ 64 - 1`. -/
def size_max : Nat := 18446744073709551615

/-- The value `numeric_limits<int64_t>::max()`, that is `2 ^ 63 - 1`: the `inf` of `findPath`. -/
def inf : Int := 9223372036854775807

/-- Assignment `m[k] = v` on the hash map. -/
def mapAssign : List (Nat × Nat) → Nat → Nat → List (Nat × Nat)
  | [], k, v => [(k, v)]
  | p :: rest, k, v => if p.1 = k then (k, v) :: rest else p :: mapAssign rest k v

/-- The call `xs[i].push_back(x)` on a vector of vectors. -/
def pushAt {α : Type} : List (List α) → Nat → α → List (List α)
  | [], _, _ => []
  | l :: rest, 0, x => (l ++ [x]) :: rest
  | l :: rest, i + 1, x => l :: pushAt rest i x

/-- The edge list `g.edges[v]`. -/
def edgesOf (g : Graph) (v : Nat) : List Edge := g.edges.getD v []

/-- The member list `g.vertexes[v].asts`. -/
def astsOf (g : Graph) (v : Nat) : List Ast := (g.vertexes.getD v ⟨[]⟩).asts

/-- The table `inverse_relations` of `normalizeAtom`. -/
def inverse_relations : FunctionName → Option FunctionName
  | .greaterOrEquals => some .less
  | .greater => some .lessOrEquals
  | _ => none

/-- The table `relation_to_enum` of the constructor. -/
def relation_to_enum : FunctionName → Option EdgeType
  | .equals => some .EQUAL
  | .less => some .LESS
  | .lessOrEquals => some .LESS_OR_EQUAL
  | _ => none

/-- The method `ComparisonGraph::normalizeAtom`. -/
def normalizeAtom (atom : Atom) : Atom :=
  match inverse_relations atom.name with
  | some name => ⟨name, atom.right, atom.left⟩
  | none => atom

/-- The lambda `get_index` of the constructor; `none` is `bad_term`. -/
def get_index (ast : Ast) (asts_graph : Graph) : Option Nat × Graph :=
  match asts_graph.ast_hash_to_component.lookup ast.treeHash with
  | some i =>
    if !((astsOf asts_graph i).any
        (fun constraint_ast =>
          constraint_ast.treeHash == ast.treeHash && constraint_ast.columnName == ast.columnName))
    then (none, asts_graph)
    else (some i, asts_graph)
  | none =>
    (some asts_graph.vertexes.length,
      { ast_hash_to_component :=
          mapAssign asts_graph.ast_hash_to_component ast.treeHash asts_graph.vertexes.length
        vertexes := asts_graph.vertexes ++ [⟨[ast]⟩]
        edges := asts_graph.edges ++ [[]] })

/-- One iteration of the constructor loop over `atomic_formulas`. -/
def addAtom (g : Graph) (atom_raw : Atom) : Graph :=
  let atom := normalizeAtom atom_raw
  match relation_to_enum atom.name with
  | some ty =>
    let r1 := get_index atom.left g
    let r2 := get_index atom.right r1.2
    match r1.1, r2.1 with
    | some index_left, some index_right =>
      let g3 : Graph := { r2.2 with edges := pushAt r2.2.edges index_right ⟨ty, index_left⟩ }
      if atom.name = .equals then
        { g3 with edges := pushAt g3.edges index_left ⟨ty, index_right⟩ }
      else g3
    | _, _ => r2.2
  | none => g

/-- The local graph `g` of the constructor after the loop. -/
def astsGraph (atomic_formulas : List Atom) : Graph :=
  atomic_formulas.foldl addAtom ⟨[], [], []⟩

/-- The method `ComparisonGraph::dfsOrder`; the state is `(visited, order)`. -/
def dfsOrder (asts_graph : Graph) : Nat → Nat → List Bool × List Nat → List Bool × List Nat
  | 0, _, st => st
  | fuel + 1, v, st =>
    let st1 := (edgesOf asts_graph v).foldl
      (fun s edge => if !(s.1.getD edge.to_ true) then dfsOrder asts_graph fuel edge.to_ s else s)
      (st.1.set v true, st.2)
    (st1.1, st1.2 ++ [v])

/-- The edges of the local graph `g` that `reverseGraph` fills in. -/
def reversedEdges (asts_graph : Graph) : List (List Edge) :=
  (List.range asts_graph.vertexes.length).foldl
    (fun es v => (edgesOf asts_graph v).foldl (fun es edge => pushAt es edge.to_ ⟨edge.type, v⟩) es)
    (List.replicate asts_graph.vertexes.length [])

/-- The method `ComparisonGraph::reverseGraph`: it fills the local `g` and
returns `asts_graph`. -/
def reverseGraph (asts_graph : Graph) : Graph :=
  let _g : Graph :=
    { ast_hash_to_component := asts_graph.ast_hash_to_component
      vertexes := asts_graph.vertexes
      edges := reversedEdges asts_graph }
  asts_graph

/-- The method `ComparisonGraph::dfsComponents`; `none` is `not_visited`. -/
def dfsComponents (reversed_graph : Graph) :
    Nat → Nat → List (Option Nat) → Nat → List (Option Nat)
  | 0, _, components, _ => components
  | fuel + 1, v, components, component =>
    (edgesOf reversed_graph v).foldl
      (fun cs edge =>
        if cs.getD edge.to_ (some 0) = none then
          dfsComponents reversed_graph fuel edge.to_ cs component
        else cs)
      (components.set v (some component))

/-- The value `components[v]` used as a number. -/
def componentAt (components : List (Option Nat)) (v : Nat) : Nat :=
  (components.getD v none).getD size_max

/-- The first pass of `BuildGraphFromAstsGraph`: the vector `order`. -/
def buildOrder (asts_graph : Graph) : List Nat :=
  let n := asts_graph.vertexes.length
  ((List.range n).foldl
    (fun st v => if !(st.1.getD v true) then dfsOrder asts_graph n v st else st)
    (List.replicate n false, [])).2

/-- The second pass of `BuildGraphFromAstsGraph`: `(components, component)`. -/
def buildComponents (asts_graph : Graph) (order : List Nat) : List (Option Nat) × Nat :=
  let n := asts_graph.vertexes.length
  let reversed_graph := reverseGraph asts_graph
  order.foldl
    (fun cs v =>
      if cs.1.getD v (some 0) = none then
        (dfsComponents reversed_graph n v cs.1 cs.2, cs.2 + 1)
      else cs)
    (List.replicate n none, 0)

/-- The call `vertexes[i].asts.insert(end, xs)`. -/
def appendAt : List EqualComponent → Nat → List Ast → List EqualComponent
  | [], _, _ => []
  | c :: rest, 0, xs => ⟨c.asts ++ xs⟩ :: rest
  | c :: rest, i + 1, xs => c :: appendAt rest i xs

/-- The method `ComparisonGraph::BuildGraphFromAstsGraph`. The loop over
`asts_graph.ast_hash_to_component` visits the entries in insertion order; the
program visits them in the order of its map, which only permutes the members
within each list `vertexes[c].asts`. -/
def BuildGraphFromAstsGraph (asts_graph : Graph) : Graph :=
  let n := asts_graph.vertexes.length
  let order := buildOrder asts_graph
  let cc := buildComponents asts_graph order
  let components := cc.1
  let component := cc.2
  let r0 : Graph := ⟨[], List.replicate component ⟨[]⟩, List.replicate component []⟩
  let r1 : Graph := asts_graph.ast_hash_to_component.foldl
    (fun r p =>
      { r with
        ast_hash_to_component := mapAssign r.ast_hash_to_component p.1 (componentAt components p.2)
        vertexes := appendAt r.vertexes (componentAt components p.2) (astsOf asts_graph p.2) })
    r0
  (List.range n).foldl
    (fun r v => (edgesOf asts_graph v).foldl
      (fun r edge =>
        { r with
          edges := pushAt r.edges (componentAt components v)
            ⟨edge.type, componentAt components edge.to_⟩ })
      r)
    r1

/-- The constructor `ComparisonGraph::ComparisonGraph`: the member `graph`. -/
def ComparisonGraph (atomic_formulas : List Atom) : Graph :=
  BuildGraphFromAstsGraph (astsGraph atomic_formulas)

/-- The local `weight` of `findPath`: -1 for a `LESS` edge, 0 otherwise. -/
def weight (edge : Edge) : Int := if edge.type = EdgeType.LESS then -1 else 0

/-- The body of the inner loop of `findPath` for one edge of `v`; the state is
`(dist, has_relaxation)`. -/
def relaxEdge (v : Nat) (s : List Int × Bool) (edge : Edge) : List Int × Bool :=
  if s.1.getD edge.to_ inf > s.1.getD v inf + weight edge then
    (s.1.set edge.to_ (s.1.getD v inf + weight edge), true)
  else s

/-- The inner loop of `findPath` over `graph.edges[v]`. -/
def relaxEdges (graph : Graph) (v : Nat) (st : List Int × Bool) : List Int × Bool :=
  (edgesOf graph v).foldl (relaxEdge v) st

/-- One iteration of the loop over `k` in `findPath`: the loop over `v`. -/
def relaxRound (graph : Graph) (n : Nat) (dist : List Int) : List Int × Bool :=
  (List.range n).foldl
    (fun s v => if s.1.getD v inf = inf then s else relaxEdges graph v s)
    (dist, false)

/-- The loop over `k` in `findPath`, with its `break`. -/
def relaxRounds (graph : Graph) (n : Nat) : Nat → List Int → List Int
  | 0, dist => dist
  | k + 1, dist =>
    let s := relaxRound graph n dist
    if s.2 then s.1 else relaxRounds graph n k s.1

/-- The method `ComparisonGraph::findPath`. -/
def findPath (graph : Graph) (start finish : Nat) : Bool × Bool :=
  let n := graph.vertexes.length
  let dist := relaxRounds graph n n ((List.replicate n inf).set start 0)
  (dist.getD finish inf != inf, decide (dist.getD finish inf < 0))

/-- The method `ComparisonGraph::compare`. -/
def compare (graph : Graph) (left right : Ast) : CompareResult :=
  match graph.ast_hash_to_component.lookup left.treeHash,
      graph.ast_hash_to_component.lookup right.treeHash with
  | some start, some finish =>
    if start = finish then CompareResult.EQUAL
    else
      let p := findPath graph start finish
      if p.1 then (if p.2 then CompareResult.GREATER else CompareResult.GREATER_OR_EQUAL)
      else
        let q := findPath graph finish start
        if q.1 then (if q.2 then CompareResult.LESS else CompareResult.LESS_OR_EQUAL)
        else CompareResult.UNKNOWN
  | _, _ => CompareResult.UNKNOWN

/-- The method `ComparisonGraph::getEqual`. The iterator `hash_it` is the
lookup result, `none` being `end()`; dereferencing `end()` has no defined
result, which is `none` here. -/
def getEqual (graph : Graph) (ast : Ast) : Option (List Ast) :=
  let hash_it := graph.ast_hash_to_component.lookup ast.treeHash
  if hash_it.isSome then some []
  else
    hash_it.bind fun index =>
      if (astsOf graph index).any
          (fun constraint_ast =>
            constraint_ast.treeHash == ast.treeHash && constraint_ast.columnName == ast.columnName)
      then some (astsOf graph index)
      else some []

/-! ## Vocabulary of the properties -/

/-- The operands of a list of atomic formulas. -/
def operands : List Atom → List Ast
  | [] => []
  | f :: rest => f.left :: f.right :: operands rest

/-- Operands with the same tree hash are the same expression. -/
def DistinctHashes (facts : List Atom) : Prop :=
  ∀ x ∈ operands facts, ∀ y ∈ operands facts, x.treeHash = y.treeHash → x = y

/-- An assignment of integers to expressions satisfies an atomic formula. -/
def holds (val : Ast → Int) (atom : Atom) : Prop :=
  match atom.name with
  | .equals => val atom.left = val atom.right
  | .less => val atom.left < val atom.right
  | .lessOrEquals => val atom.left ≤ val atom.right
  | .greater => val atom.left > val atom.right
  | .greaterOrEquals => val atom.left ≥ val atom.right

/-- An answer of `compare` is true of `x` and `y` under an assignment. -/
def answerHolds (val : Ast → Int) (r : CompareResult) (x y : Ast) : Prop :=
  match r with
  | .EQUAL => val x = val y
  | .LESS => val x < val y
  | .LESS_OR_EQUAL => val x ≤ val y
  | .GREATER => val x > val y
  | .GREATER_OR_EQUAL => val x ≥ val y
  | .UNKNOWN => True

/-- The fact graph on expressions: an edge from the right operand of a fact to
its left operand. -/
def factEdge (facts : List Atom) (u v : Ast) : Prop :=
  ∃ f ∈ facts, f.right = u ∧ f.left = v

/-- Sample expressions with hashes 1, 2, 3. -/
def exprA : Ast := ⟨1, "a"⟩

/-- Sample expression with hash 2. -/
def exprB : Ast := ⟨2, "b"⟩

/-- Sample expression with hash 3. -/
def exprC : Ast := ⟨3, "c"⟩

/-- An expression with the hash of `exprA` and another column name. -/
def exprA2 : Ast := ⟨1, "z"⟩

/-! ## Vocabulary of the proofs -/

/-- Every edge of the graph goes to a vertex with a smaller id. -/
def Descending (R : Graph) : Prop :=
  ∀ i, ∀ e ∈ edgesOf R i, e.to_ < i

/-- The initial distance vector of `findPath`. -/
def dist0 (n s : Nat) : List Int := (List.replicate n inf).set s 0

/-- The state kept by the inner loop of `findPath` at the start vertex `s`. -/
def SeedInv (s : Nat) (d : List Int) : Prop :=
  d[s]? = some 0 ∧ ∀ (j : Nat) (x : Int), d[j]? = some x → -1 ≤ x

/-- The fact graph on vertex ids: the vertex `u` has an edge to `w`. -/
def gEdge (g : Graph) (u w : Nat) : Prop := ∃ e ∈ edgesOf g u, e.to_ = w

/-- The vertex `u` is marked in the vector `visited`. -/
def Vis (vis : List Bool) (u : Nat) : Prop := vis[u]? = some true

/-- In `order` every vertex stands after all its successors and after no
other occurrence of itself. -/
def PostOrdered (g : Graph) (ord : List Nat) : Prop :=
  ∀ p v s, ord = p ++ v :: s → (∀ w, gEdge g v w → w ∈ p) ∧ v ∉ p

/-- The invariant of the state `(visited, order)` of the first pass. -/
def DfsInv (g : Graph) (n : Nat) (st : List Bool × List Nat) : Prop :=
  st.1.length = n ∧ (∀ u ∈ st.2, Vis st.1 u) ∧ PostOrdered g st.2

/-- The state `st2` extends `st`: marks are kept, the vertices added to `order`
are the newly marked ones, and no more vertices are unmarked. -/
def DfsExt (st st2 : List Bool × List Nat) : Prop :=
  (∀ u, Vis st.1 u → Vis st2.1 u) ∧
  (∀ u, u ∈ st2.2 ↔ u ∈ st.2 ∨ (Vis st2.1 u ∧ ¬ Vis st.1 u)) ∧
  st2.1.count false ≤ st.1.count false

/-- The invariant of the state `(components, component)` of the second pass
after the vertices `p` of `order`, on an acyclic graph: the vertices of `p` are
numbered below the count, the others are not yet numbered, and every edge from
a vertex of `p` goes to a smaller number. -/
def CompInv (g : Graph) (n : Nat) (p : List Nat) (cs : List (Option Nat) × Nat) : Prop :=
  cs.1.length = n ∧ cs.2 = p.length ∧
  (∀ u ∈ p, ∃ i, i < p.length ∧ cs.1[u]? = some (some i)) ∧
  (∀ u, u < n → u ∉ p → cs.1[u]? = some none) ∧
  (∀ u ∈ p, ∀ w, gEdge g u w → componentAt cs.1 w < componentAt cs.1 u)

/-- The invariant of the fact graph under construction from facts whose
operands lie in `S`: the two vectors have one length, the keys of the lookup
index are distinct, every entry of the index points to a vertex holding one
expression of `S` with that hash, and every edge comes from a fact. -/
def FactInv (S : List Ast) (facts : List Atom) (g : Graph) : Prop :=
  g.vertexes.length = g.edges.length ∧
  (g.ast_hash_to_component.map Prod.fst).Nodup ∧
  (∀ k i, g.ast_hash_to_component.lookup k = some i →
    i < g.vertexes.length ∧ ∃ c ∈ S, c.treeHash = k ∧ astsOf g i = [c]) ∧
  (∀ u, ∀ e ∈ edgesOf g u, ∃ f ∈ facts,
    g.ast_hash_to_component.lookup f.right.treeHash = some u ∧
    g.ast_hash_to_component.lookup f.left.treeHash = some e.to_)

/-- The graph `g2` keeps the index entries and the edges of `g`. -/
def GraphExt (g g2 : Graph) : Prop :=
  (∀ k i, g.ast_hash_to_component.lookup k = some i →
    g2.ast_hash_to_component.lookup k = some i) ∧
  (∀ u, ∀ e ∈ edgesOf g u, e ∈ edgesOf g2 u)

/-- Well-formedness of a fact graph: the two vectors have one length, the keys
of the lookup index are distinct, every entry of the index points to a vertex,
every vertex has an entry and a non-empty member list, and every edge goes to
a vertex. -/
def WfGraph (g : Graph) : Prop :=
  g.vertexes.length = g.edges.length ∧
  (g.ast_hash_to_component.map Prod.fst).Nodup ∧
  (∀ p ∈ g.ast_hash_to_component, p.2 < g.vertexes.length) ∧
  (∀ i, i < g.vertexes.length → ∃ k, (k, i) ∈ g.ast_hash_to_component) ∧
  (∀ i, i < g.vertexes.length → astsOf g i ≠ []) ∧
  (∀ u, ∀ e ∈ edgesOf g u, e.to_ < g.vertexes.length)

/-- The edges the builder rule adds at the vertex `u` for an accepted fact of
the given normalized name with left operand at `l` and right operand at `r`:
one edge `r -> l` for `less` and `lessOrEquals`, the two edges `r -> l` and
`l -> r` for `equals`. -/
def ruleEdges (name : FunctionName) (l r u : Nat) : List Edge :=
  match name with
  | .less => if u = r then [⟨EdgeType.LESS, l⟩] else []
  | .lessOrEquals => if u = r then [⟨EdgeType.LESS_OR_EQUAL, l⟩] else []
  | .equals =>
    (if u = r then [⟨EdgeType.EQUAL, l⟩] else []) ++ (if u = l then [⟨EdgeType.EQUAL, r⟩] else [])
  | _ => []

/-- The vertex `u` has a component id in the vector `components`. -/
def Assigned (cs : List (Option Nat)) (u : Nat) : Prop := ∃ i, cs[u]? = some (some i)

/-- The vector `cs2` extends `cs` by the component `c`: ids are kept, a vertex
without id stays so or gets `c`, every vertex that got `c` has all its
successors numbered, and no more vertices are without id. -/
def CompExt (g : Graph) (c : Nat) (cs cs2 : List (Option Nat)) : Prop :=
  cs2.length = cs.length ∧
  (∀ (u i : Nat), cs[u]? = some (some i) → cs2[u]? = some (some i)) ∧
  (∀ (u : Nat), cs[u]? = some none → cs2[u]? = some none ∨ cs2[u]? = some (some c)) ∧
  (∀ (u : Nat), cs[u]? = some none → cs2[u]? = some (some c) →
    ∀ w, gEdge g u w → Assigned cs2 w) ∧
  cs2.count none ≤ cs.count none

/-- The invariant of the state `(components, component)` of the second pass on
any graph: ids are below the count, the numbered vertices are closed under
successors, edges go to an id that is not larger, mutually reachable vertices
have the same entry, and every id below the count is that of some vertex. -/
def SccInv (g : Graph) (cs : List (Option Nat) × Nat) : Prop :=
  (∀ (u i : Nat), cs.1[u]? = some (some i) → i < cs.2) ∧
  (∀ u, Assigned cs.1 u → ∀ w, gEdge g u w → Assigned cs.1 w) ∧
  (∀ (u w i j : Nat), cs.1[u]? = some (some i) → gEdge g u w → cs.1[w]? = some (some j) →
    j ≤ i) ∧
  (∀ u w, Relation.ReflTransGen (gEdge g) u w → Relation.ReflTransGen (gEdge g) w u →
    cs.1[u]? = cs.1[w]?) ∧
  (∀ c, c < cs.2 → ∃ (r : Nat), cs.1[r]? = some (some c))

/-- The expression `x` has the hash of an expression stored in `g` and is not
exactly equal (hash and column name) to a stored one of that vertex. -/
def Collides (g : Graph) (x : Ast) : Prop :=
  ∃ i, g.ast_hash_to_component.lookup x.treeHash = some i ∧
    ∀ c ∈ astsOf g i, ¬ (c.treeHash = x.treeHash ∧ c.columnName = x.columnName)

/-- The graph `g` with a new last vertex for the expression `x`: the index
entry from the hash of `x` to the new vertex id, the member list holding `x`,
and an empty edge list, as the creating branch of `get_index` makes them. -/
def withVertex (g : Graph) (x : Ast) : Graph :=
  { ast_hash_to_component := g.ast_hash_to_component ++ [(x.treeHash, g.vertexes.length)]
    vertexes := g.vertexes ++ [⟨[x]⟩]
    edges := g.edges ++ [[]] }

/-! ## Evaluations of the code -/

/-- C1 (soundness of compare) fails on the code: the single fact `a >= b` has
pairwise distinct hashes and holds under the assignment sending every
expression to 0, yet `compare(a, b)` answers `GREATER`, which is false under
that assignment. -/
theorem compare_unsound_greaterOrEquals :
    DistinctHashes [⟨.greaterOrEquals, exprA, exprB⟩] ∧
    (∀ f ∈ [(⟨.greaterOrEquals, exprA, exprB⟩ : Atom)], holds (fun _ => 0) f) ∧
    compare (ComparisonGraph [⟨.greaterOrEquals, exprA, exprB⟩]) exprA exprB
      = CompareResult.GREATER ∧
    ¬ answerHolds (fun _ => 0) CompareResult.GREATER exprA exprB := by
  refine ⟨?_, ?_, by decide, ?_⟩
  · intro x hx y hy h
    simp only [operands, List.mem_cons, List.mem_nil_iff, or_false] at hx hy
    rcases hx with rfl | rfl <;> rcases hy with rfl | rfl <;> first | rfl | (exact absurd h (by decide))
  · intro f hf
    simp only [List.mem_cons, List.mem_nil_iff, or_false] at hf
    subst hf
    simp [holds]
  · simp [answerHolds]

/-- C2 (transitivity closure) fails on the code: on the facts `a < b`, `b <= c`
both `compare(a, c)` and `compare(c, a)` answer `UNKNOWN`. -/
theorem compare_transitive_unknown :
    compare (ComparisonGraph [⟨.less, exprA, exprB⟩, ⟨.lessOrEquals, exprB, exprC⟩]) exprA exprC
      = CompareResult.UNKNOWN ∧
    compare (ComparisonGraph [⟨.less, exprA, exprB⟩, ⟨.lessOrEquals, exprB, exprC⟩]) exprC exprA
      = CompareResult.UNKNOWN := by
  decide

/-- C3 (inverted operator end to end) fails on the code: `normalizeAtom` turns
`a > b` into `b <= a`, and on that single fact `compare(a, b)` answers
`GREATER_OR_EQUAL` and `compare(b, a)` answers `LESS_OR_EQUAL`. -/
theorem compare_greater_not_strict :
    normalizeAtom ⟨.greater, exprA, exprB⟩ = ⟨.lessOrEquals, exprB, exprA⟩ ∧
    compare (ComparisonGraph [⟨.greater, exprA, exprB⟩]) exprA exprB
      = CompareResult.GREATER_OR_EQUAL ∧
    compare (ComparisonGraph [⟨.greater, exprA, exprB⟩]) exprB exprA
      = CompareResult.LESS_OR_EQUAL := by
  decide

/-- C4 (equalSet of a known expression) fails on the code: on the single fact
`a = b` the hash of `a` resolves to the class 0, whose members are, as a set,
`a` and `b`, and `getEqual(a)` returns the empty sequence. -/
theorem getEqual_known_empty :
    (ComparisonGraph [⟨.equals, exprA, exprB⟩]).ast_hash_to_component.lookup exprA.treeHash
      = some 0 ∧
    (∀ x, x ∈ astsOf (ComparisonGraph [⟨.equals, exprA, exprB⟩]) 0 ↔ x = exprA ∨ x = exprB) ∧
    getEqual (ComparisonGraph [⟨.equals, exprA, exprB⟩]) exprA = some [] := by
  refine ⟨by decide, ?_, by decide⟩
  intro x
  have h : astsOf (ComparisonGraph [⟨.equals, exprA, exprB⟩]) 0 = [exprA, exprB] := by decide
  rw [h]
  simp

/-- C5 (equalSet of an unknown expression) fails on the code: on the single fact
`a = b` the hash of `c` is absent from the lookup index, and `getEqual(c)`
dereferences the end iterator instead of returning the empty sequence. -/
theorem getEqual_unknown_fails :
    (ComparisonGraph [⟨.equals, exprA, exprB⟩]).ast_hash_to_component.lookup exprC.treeHash
      = none ∧
    getEqual (ComparisonGraph [⟨.equals, exprA, exprB⟩]) exprC = none := by
  decide

/-- C6 (reordering invariance) fails on the code: the facts `a = b`, `c < a`
and their permutation `c < a`, `a = b` give different answers to
`compare(c, a)`, namely `EQUAL` and `LESS`. -/
theorem compare_depends_on_fact_order :
    List.Perm [(⟨.equals, exprA, exprB⟩ : Atom), ⟨.less, exprC, exprA⟩]
      [⟨.less, exprC, exprA⟩, ⟨.equals, exprA, exprB⟩] ∧
    compare (ComparisonGraph [⟨.equals, exprA, exprB⟩, ⟨.less, exprC, exprA⟩]) exprC exprA
      = CompareResult.EQUAL ∧
    compare (ComparisonGraph [⟨.less, exprC, exprA⟩, ⟨.equals, exprA, exprB⟩]) exprC exprA
      = CompareResult.LESS :=
  ⟨List.Perm.swap _ _ _, by decide, by decide⟩

/-- C7 (unknown isolation under hash collisions) fails on the code: on the
single fact `a < b`, an expression that is no operand of the fact and has the
hash of `a` is answered `LESS` against `b` and `GREATER` the other way. -/
theorem compare_collision_not_unknown :
    exprA2 ∉ operands [⟨.less, exprA, exprB⟩] ∧
    compare (ComparisonGraph [⟨.less, exprA, exprB⟩]) exprA2 exprB = CompareResult.LESS ∧
    compare (ComparisonGraph [⟨.less, exprA, exprB⟩]) exprB exprA2 = CompareResult.GREATER := by
  decide

/-! ## Properties of `findPath` and `compare` on any graph -/

/-- The inner loop of `findPath` reads only the edges of the graph. -/
theorem relaxEdges_congr (G H : Graph) (h : G.edges = H.edges) (v : Nat) (st : List Int × Bool) :
    relaxEdges G v st = relaxEdges H v st := by
  simp only [relaxEdges, edgesOf, h]

/-- A round of `findPath` reads only the edges of the graph. -/
theorem relaxRound_congr (G H : Graph) (h : G.edges = H.edges) (n : Nat) (dist : List Int) :
    relaxRound G n dist = relaxRound H n dist := by
  simp only [relaxRound, relaxEdges_congr G H h]

/-- The rounds of `findPath` read only the edges of the graph. -/
theorem relaxRounds_congr (G H : Graph) (h : G.edges = H.edges) (n k : Nat) (dist : List Int) :
    relaxRounds G n k dist = relaxRounds H n k dist := by
  induction k generalizing dist with
  | zero => rfl
  | succ k ih => simp only [relaxRounds, relaxRound_congr G H h, ih]

/-- The method `findPath` reads only the number of vertices and the edges. -/
theorem findPath_congr (G H : Graph) (hv : G.vertexes.length = H.vertexes.length)
    (h : G.edges = H.edges) (s f : Nat) : findPath G s f = findPath H s f := by
  simp only [findPath, hv, relaxRounds_congr G H h]

/-- On any graph, swapping the operands of `compare` turns `LESS` into `GREATER`,
`LESS_OR_EQUAL` into `GREATER_OR_EQUAL` and keeps `EQUAL`. -/
theorem compare_swap (g : Graph) (x y : Ast) :
    (compare g x y = CompareResult.LESS → compare g y x = CompareResult.GREATER) ∧
    (compare g x y = CompareResult.LESS_OR_EQUAL →
      compare g y x = CompareResult.GREATER_OR_EQUAL) ∧
    (compare g x y = CompareResult.EQUAL → compare g y x = CompareResult.EQUAL) := by
  unfold compare
  cases hx : g.ast_hash_to_component.lookup x.treeHash <;>
    cases hy : g.ast_hash_to_component.lookup y.treeHash <;> simp
  rename_i s f
  by_cases h : s = f
  · subst h; simp
  · have h2 : ¬ f = s := fun e => h e.symm
    simp only [h, h2, if_false]
    rcases findPath g s f with ⟨p1, p2⟩
    rcases findPath g f s with ⟨q1, q2⟩
    cases p1 <;> cases p2 <;> cases q1 <;> cases q2 <;> simp

/-! ## Equality merge -/

/-- C8 (equality merge carries ordering): for expressions `a`, `b`, `c` with
pairwise distinct hashes, on the graph built from the facts `a = b`, `b < c`,
`compare(a, c)` and `compare(b, c)` both answer `LESS`. -/
theorem compare_equality_merge (a b c : Ast)
    (hab : a.treeHash ≠ b.treeHash) (hac : a.treeHash ≠ c.treeHash)
    (hbc : b.treeHash ≠ c.treeHash) :
    compare (ComparisonGraph [⟨.equals, a, b⟩, ⟨.less, b, c⟩]) a c = CompareResult.LESS ∧
    compare (ComparisonGraph [⟨.equals, a, b⟩, ⟨.less, b, c⟩]) b c = CompareResult.LESS := by
  have e1 : (a.treeHash == b.treeHash) = false := by simpa using hab
  have e2 : (b.treeHash == a.treeHash) = false := by simpa using hab.symm
  have e3 : (a.treeHash == c.treeHash) = false := by simpa using hac
  have e4 : (c.treeHash == a.treeHash) = false := by simpa using hac.symm
  have e5 : (b.treeHash == c.treeHash) = false := by simpa using hbc
  have e6 : (c.treeHash == b.treeHash) = false := by simpa using hbc.symm
  have hg : astsGraph [⟨.equals, a, b⟩, ⟨.less, b, c⟩] =
      ⟨[(a.treeHash, 0), (b.treeHash, 1), (c.treeHash, 2)], [⟨[a]⟩, ⟨[b]⟩, ⟨[c]⟩],
        [[⟨.EQUAL, 1⟩], [⟨.EQUAL, 0⟩], [⟨.LESS, 1⟩]]⟩ := by
    simp [astsGraph, addAtom, normalizeAtom, inverse_relations, relation_to_enum, get_index,
      List.lookup, mapAssign, pushAt, astsOf, hab, hac, hbc, hab.symm, hac.symm, hbc.symm,
      e1, e2, e3, e4, e5, e6]
  have hb : ComparisonGraph [⟨.equals, a, b⟩, ⟨.less, b, c⟩] =
      ⟨[(a.treeHash, 0), (b.treeHash, 0), (c.treeHash, 1)], [⟨[a, b]⟩, ⟨[c]⟩],
        [[⟨.EQUAL, 0⟩, ⟨.EQUAL, 0⟩], [⟨.LESS, 0⟩]]⟩ := by
    rw [ComparisonGraph, hg]
    have ho : buildOrder ⟨[(a.treeHash, 0), (b.treeHash, 1), (c.treeHash, 2)],
        [⟨[a]⟩, ⟨[b]⟩, ⟨[c]⟩], [[⟨.EQUAL, 1⟩], [⟨.EQUAL, 0⟩], [⟨.LESS, 1⟩]]⟩ = [1, 0, 2] := rfl
    have hc : buildComponents ⟨[(a.treeHash, 0), (b.treeHash, 1), (c.treeHash, 2)],
        [⟨[a]⟩, ⟨[b]⟩, ⟨[c]⟩], [[⟨.EQUAL, 1⟩], [⟨.EQUAL, 0⟩], [⟨.LESS, 1⟩]]⟩ [1, 0, 2]
        = ([some 0, some 0, some 1], 2) := rfl
    simp [BuildGraphFromAstsGraph, ho, hc, componentAt, mapAssign, appendAt, astsOf, edgesOf,
      pushAt, List.range, List.range.loop, hab, hac, hbc, hab.symm, hac.symm, hbc.symm]
  rw [hb]
  have f1 : findPath ⟨[(a.treeHash, 0), (b.treeHash, 0), (c.treeHash, 1)], [⟨[a, b]⟩, ⟨[c]⟩],
        [[⟨.EQUAL, 0⟩, ⟨.EQUAL, 0⟩], [⟨.LESS, 0⟩]]⟩ 0 1 = (false, false) :=
    (findPath_congr _ ⟨[], [⟨[]⟩, ⟨[]⟩], [[⟨.EQUAL, 0⟩, ⟨.EQUAL, 0⟩], [⟨.LESS, 0⟩]]⟩
      rfl rfl _ _).trans (by decide)
  have f2 : findPath ⟨[(a.treeHash, 0), (b.treeHash, 0), (c.treeHash, 1)], [⟨[a, b]⟩, ⟨[c]⟩],
        [[⟨.EQUAL, 0⟩, ⟨.EQUAL, 0⟩], [⟨.LESS, 0⟩]]⟩ 1 0 = (true, true) :=
    (findPath_congr _ ⟨[], [⟨[]⟩, ⟨[]⟩], [[⟨.EQUAL, 0⟩, ⟨.EQUAL, 0⟩], [⟨.LESS, 0⟩]]⟩
      rfl rfl _ _).trans (by decide)
  constructor <;> simp [compare, List.lookup, e1, e2, e3, e4, e5, e6, f1, f2]

/-- C8 at the expressions with hashes 1, 2, 3. -/
theorem compare_equality_merge_witness :
    compare (ComparisonGraph [⟨.equals, exprA, exprB⟩, ⟨.less, exprB, exprC⟩]) exprA exprC
      = CompareResult.LESS ∧
    compare (ComparisonGraph [⟨.equals, exprA, exprB⟩, ⟨.less, exprB, exprC⟩]) exprB exprC
      = CompareResult.LESS :=
  compare_equality_merge exprA exprB exprC (by decide) (by decide) (by decide)

/-! ## Antisymmetry -/

/-- C10 (antisymmetry): for every fact list and all expressions `x` and `y`, on
the graph built from the list, if `compare(x, y)` is `LESS` then `compare(y, x)`
is `GREATER`; if it is `LESS_OR_EQUAL` then `compare(y, x)` is
`GREATER_OR_EQUAL`; if it is `EQUAL` then `compare(y, x)` is `EQUAL`. -/
theorem compare_antisymmetric (facts : List Atom) (x y : Ast) :
    (compare (ComparisonGraph facts) x y = CompareResult.LESS →
      compare (ComparisonGraph facts) y x = CompareResult.GREATER) ∧
    (compare (ComparisonGraph facts) x y = CompareResult.LESS_OR_EQUAL →
      compare (ComparisonGraph facts) y x = CompareResult.GREATER_OR_EQUAL) ∧
    (compare (ComparisonGraph facts) x y = CompareResult.EQUAL →
      compare (ComparisonGraph facts) y x = CompareResult.EQUAL) :=
  compare_swap (ComparisonGraph facts) x y

/-- C10 at facts where each premise holds: `a < b`, `a <= b` and `a = b`. -/
theorem compare_antisymmetric_witness :
    compare (ComparisonGraph [⟨.less, exprA, exprB⟩]) exprB exprA = CompareResult.GREATER ∧
    compare (ComparisonGraph [⟨.lessOrEquals, exprA, exprB⟩]) exprB exprA
      = CompareResult.GREATER_OR_EQUAL ∧
    compare (ComparisonGraph [⟨.equals, exprA, exprB⟩]) exprB exprA = CompareResult.EQUAL :=
  ⟨(compare_antisymmetric [⟨.less, exprA, exprB⟩] exprA exprB).1 (by decide),
   (compare_antisymmetric [⟨.lessOrEquals, exprA, exprB⟩] exprA exprB).2.1 (by decide),
   (compare_antisymmetric [⟨.equals, exprA, exprB⟩] exprA exprB).2.2 (by decide)⟩

/-! ## `findPath` on a graph whose edges descend -/

theorem dist0_length (n s : Nat) : (dist0 n s).length = n := by
  simp [dist0]

theorem dist0_self {n s : Nat} (h : s < n) : (dist0 n s)[s]? = some 0 := by
  simp [dist0, List.getElem?_set, h]

theorem dist0_other {n s j : Nat} (h : j < n) (hj : j ≠ s) : (dist0 n s)[j]? = some inf := by
  simp [dist0, List.getElem?_set, h, Ne.symm hj]

theorem relaxEdge_length (v : Nat) (st : List Int × Bool) (e : Edge) :
    (relaxEdge v st e).1.length = st.1.length := by
  unfold relaxEdge
  split <;> simp

theorem relaxEdge_other (v : Nat) (st : List Int × Bool) (e : Edge) (j : Nat) (h : e.to_ ≠ j) :
    (relaxEdge v st e).1[j]? = st.1[j]? := by
  unfold relaxEdge
  split
  · simp [List.getElem?_set_ne h]
  · rfl

theorem relaxEdges_fold_other (v : Nat) (es : List Edge) (st : List Int × Bool) (j : Nat)
    (h : ∀ e ∈ es, e.to_ ≠ j) :
    (es.foldl (relaxEdge v) st).1[j]? = st.1[j]? := by
  induction es generalizing st with
  | nil => rfl
  | cons e es ih =>
    simp only [List.foldl_cons]
    rw [ih _ (fun e1 h1 => h e1 (List.mem_cons_of_mem _ h1))]
    exact relaxEdge_other v st e j (h e (List.mem_cons_self _ _))

theorem relaxEdges_fold_length (v : Nat) (es : List Edge) (st : List Int × Bool) :
    (es.foldl (relaxEdge v) st).1.length = st.1.length := by
  induction es generalizing st with
  | nil => rfl
  | cons e es ih => simp only [List.foldl_cons]; rw [ih, relaxEdge_length]

/-- With the flag still unset the distances are unchanged. -/
theorem relaxEdge_flag (v : Nat) (st : List Int × Bool) (e : Edge) :
    (relaxEdge v st e).2 = false → st.2 = false ∧ (relaxEdge v st e).1 = st.1 := by
  unfold relaxEdge
  split
  · simp
  · intro h; exact ⟨h, rfl⟩

theorem relaxEdges_fold_flag (v : Nat) (es : List Edge) (st : List Int × Bool) :
    (es.foldl (relaxEdge v) st).2 = false →
      st.2 = false ∧ (es.foldl (relaxEdge v) st).1 = st.1 := by
  induction es generalizing st with
  | nil => intro h; exact ⟨h, rfl⟩
  | cons e es ih =>
    intro h
    simp only [List.foldl_cons] at h ⊢
    obtain ⟨h1, h2⟩ := ih _ h
    obtain ⟨h3, h4⟩ := relaxEdge_flag v st e h1
    exact ⟨h3, h2.trans h4⟩

theorem weight_bounds (e : Edge) : -1 ≤ weight e ∧ weight e ≤ 0 := by
  unfold weight; split <;> simp

theorem relaxEdge_seed (s : Nat) (st : List Int × Bool) (e : Edge) (he : e.to_ ≠ s)
    (h : SeedInv s st.1) : SeedInv s (relaxEdge s st e).1 := by
  obtain ⟨h0, hlb⟩ := h
  refine ⟨by rw [relaxEdge_other s st e s he]; exact h0, ?_⟩
  intro j x hx
  unfold relaxEdge at hx
  split at hx
  · simp only [List.getElem?_set] at hx
    split at hx
    · split at hx
      · simp only [List.getD_eq_getElem?_getD, h0, Option.getD_some, Option.some.injEq] at hx
        have := weight_bounds e
        omega
      · simp at hx
    · exact hlb j x hx
  · exact hlb j x hx

theorem relaxEdge_keep_strict (s : Nat) (st : List Int × Bool) (e : Edge) (f : Nat)
    (h : SeedInv s st.1) (hf : st.1[f]? = some (-1)) :
    (relaxEdge s st e).1[f]? = some (-1) := by
  by_cases he : e.to_ = f
  · unfold relaxEdge
    have hw : ¬ (st.1.getD e.to_ inf > st.1.getD s inf + weight e) := by
      simp only [List.getD_eq_getElem?_getD, he, hf, h.1, Option.getD_some]
      have := weight_bounds e
      omega
    simp only [hw, if_false]
    exact hf
  · rw [relaxEdge_other s st e f he]; exact hf

theorem relaxEdge_strict (s : Nat) (st : List Int × Bool) (f : Nat)
    (h : SeedInv s st.1) (hf : f < st.1.length) :
    (relaxEdge s st ⟨EdgeType.LESS, f⟩).1[f]? = some (-1) := by
  obtain ⟨x, hx⟩ : ∃ x, st.1[f]? = some x := ⟨st.1[f], List.getElem?_eq_getElem hf⟩
  have hlb := h.2 f x hx
  unfold relaxEdge
  have hw : weight ⟨EdgeType.LESS, f⟩ = -1 := by simp [weight]
  simp only [List.getD_eq_getElem?_getD, hx, h.1, Option.getD_some, hw]
  split
  · simp [List.getElem?_set, hf]
  · rename_i hc
    have : x = -1 := by omega
    rw [hx, this]

theorem relaxEdges_fold_strict (s : Nat) (es : List Edge) (st : List Int × Bool) (f : Nat)
    (hes : ∀ e ∈ es, e.to_ ≠ s) (h : SeedInv s st.1) (hf : f < st.1.length)
    (hmem : (⟨EdgeType.LESS, f⟩ : Edge) ∈ es ∨ st.1[f]? = some (-1)) :
    (es.foldl (relaxEdge s) st).1[f]? = some (-1) := by
  induction es generalizing st with
  | nil =>
    rcases hmem with hm | hm
    · simp at hm
    · exact hm
  | cons e es ih =>
    simp only [List.foldl_cons]
    have he := hes e (List.mem_cons_self _ _)
    apply ih _ (fun e1 h1 => hes e1 (List.mem_cons_of_mem _ h1)) (relaxEdge_seed s st e he h)
      (by rw [relaxEdge_length]; exact hf)
    rcases hmem with hm | hm
    · rcases List.mem_cons.1 hm with hm | hm
      · right; rw [← hm]; exact relaxEdge_strict s st f h hf
      · left; exact hm
    · right; exact relaxEdge_keep_strict s st e f h hm

/-- On a descending graph a round started from the initial distances is the
inner loop at the start vertex. -/
theorem relaxRound_dist0 (R : Graph) (hR : Descending R) (n s : Nat) (hs : s < n) :
    relaxRound R n (dist0 n s) = relaxEdges R s (dist0 n s, false) := by
  have hA : ∀ k, k ≤ s →
      (List.range k).foldl
        (fun st v => if st.1.getD v inf = inf then st else relaxEdges R v st)
        (dist0 n s, false) = (dist0 n s, false) := by
    intro k
    induction k with
    | zero => intro _; rfl
    | succ k ih =>
      intro hk
      rw [List.range_succ, List.foldl_append, ih (by omega)]
      simp only [List.foldl_cons, List.foldl_nil, List.getD_eq_getElem?_getD]
      rw [dist0_other (by omega) (by omega)]
      simp
  have hB : ∀ k, s < k → k ≤ n →
      (List.range k).foldl
        (fun st v => if st.1.getD v inf = inf then st else relaxEdges R v st)
        (dist0 n s, false) = relaxEdges R s (dist0 n s, false) := by
    intro k
    induction k with
    | zero => intro h; omega
    | succ k ih =>
      intro hk hkn
      rw [List.range_succ, List.foldl_append]
      by_cases hks : k = s
      · subst hks
        rw [hA k (le_refl _)]
        simp only [List.foldl_cons, List.foldl_nil, List.getD_eq_getElem?_getD]
        rw [dist0_self hs]
        simp [inf]
      · rw [ih (by omega) (by omega)]
        simp only [List.foldl_cons, List.foldl_nil, List.getD_eq_getElem?_getD]
        have : (relaxEdges R s (dist0 n s, false)).1[k]? = some inf := by
          unfold relaxEdges
          rw [relaxEdges_fold_other s _ _ k (fun e he => by have := hR s e he; omega)]
          exact dist0_other (by omega) hks
        rw [this]
        simp
  exact hB n hs (le_refl _)

/-- On a descending graph the distances `findPath` ends with are those after
the inner loop at the start vertex. -/
theorem relaxRounds_dist0 (R : Graph) (hR : Descending R) (n s : Nat) (hs : s < n) (k : Nat) :
    relaxRounds R n (k + 1) (dist0 n s) = (relaxEdges R s (dist0 n s, false)).1 := by
  induction k with
  | zero =>
    simp only [relaxRounds, relaxRound_dist0 R hR n s hs]
    split <;> rfl
  | succ k ih =>
    rw [relaxRounds]
    simp only [relaxRound_dist0 R hR n s hs]
    split
    · rfl
    · rename_i hflag
      have hflag2 : (relaxEdges R s (dist0 n s, false)).2 = false := by simpa using hflag
      have := (relaxEdges_fold_flag s (edgesOf R s) (dist0 n s, false) hflag2).2
      have h1 : (relaxEdges R s (dist0 n s, false)).1 = dist0 n s := this
      rw [h1, ih, h1]

theorem seedInv_dist0 {n s : Nat} (hs : s < n) : SeedInv s (dist0 n s) := by
  refine ⟨dist0_self hs, ?_⟩
  intro j x hx
  by_cases hj : j < n
  · by_cases hjs : j = s
    · subst hjs; rw [dist0_self hs] at hx; simp at hx; omega
    · rw [dist0_other hj hjs] at hx; simp [inf] at hx; omega
  · have : (dist0 n s)[j]? = none := by
      apply List.getElem?_eq_none; rw [dist0_length]; omega
    rw [this] at hx; simp at hx

/-- On a descending graph `findPath` finds no path to a larger id. -/
theorem findPath_ascending (R : Graph) (hR : Descending R) (s f : Nat)
    (hsf : s < f) (hf : f < R.vertexes.length) : findPath R s f = (false, false) := by
  have hs : s < R.vertexes.length := by omega
  obtain ⟨k, hk⟩ : ∃ k, R.vertexes.length = k + 1 := ⟨R.vertexes.length - 1, by omega⟩
  have hd : (relaxRounds R R.vertexes.length R.vertexes.length
      (dist0 R.vertexes.length s))[f]? = some inf := by
    conv => lhs; arg 1; arg 3; rw [hk]
    rw [relaxRounds_dist0 R hR _ s hs k]
    unfold relaxEdges
    rw [relaxEdges_fold_other s _ _ f (fun e he => by have := hR s e he; omega)]
    exact dist0_other hf (by omega)
  simp only [findPath, List.getD_eq_getElem?_getD]
  change (((relaxRounds R R.vertexes.length R.vertexes.length
      (dist0 R.vertexes.length s))[f]?.getD inf != inf),
    decide ((relaxRounds R R.vertexes.length R.vertexes.length
      (dist0 R.vertexes.length s))[f]?.getD inf < 0)) = (false, false)
  rw [hd]
  simp [inf]

/-- On a descending graph `findPath` finds a strict path along a `LESS` edge. -/
theorem findPath_less_edge (R : Graph) (hR : Descending R) (s f : Nat)
    (hs : s < R.vertexes.length) (hedge : (⟨EdgeType.LESS, f⟩ : Edge) ∈ edgesOf R s) :
    findPath R s f = (true, true) := by
  have hfs : f < s := hR s _ hedge
  obtain ⟨k, hk⟩ : ∃ k, R.vertexes.length = k + 1 := ⟨R.vertexes.length - 1, by omega⟩
  have hd : (relaxRounds R R.vertexes.length R.vertexes.length
      (dist0 R.vertexes.length s))[f]? = some (-1) := by
    conv => lhs; arg 1; arg 3; rw [hk]
    rw [relaxRounds_dist0 R hR _ s hs k]
    unfold relaxEdges
    exact relaxEdges_fold_strict s _ _ f (fun e he => by have := hR s e he; omega)
      (seedInv_dist0 hs) (by simp only [dist0_length]; omega) (Or.inl hedge)
  simp only [findPath, List.getD_eq_getElem?_getD]
  change (((relaxRounds R R.vertexes.length R.vertexes.length
      (dist0 R.vertexes.length s))[f]?.getD inf != inf),
    decide ((relaxRounds R R.vertexes.length R.vertexes.length
      (dist0 R.vertexes.length s))[f]?.getD inf < 0)) = (true, true)
  rw [hd]
  simp [inf]

/-! ## The first pass: `dfsOrder` on an acyclic graph -/

theorem vis_set (vis : List Bool) (v u : Nat) :
    Vis (vis.set v true) u ↔ (u = v ∧ v < vis.length) ∨ Vis vis u := by
  unfold Vis
  rw [List.getElem?_set]
  by_cases h : v = u
  · subst h
    by_cases hl : v < vis.length
    · simp [hl]
    · simp only [hl, if_false, if_true, and_false, false_or]
      have : vis[v]? = none := List.getElem?_eq_none (by omega)
      simp [this]
  · have h2 : ¬ u = v := fun e => h e.symm
    simp [h, h2]

theorem count_false_set (vis : List Bool) (v : Nat) (h : vis[v]? = some false) :
    (vis.set v true).count false + 1 = vis.count false := by
  induction vis generalizing v with
  | nil => simp at h
  | cons b vis ih =>
    cases v with
    | zero =>
      simp only [List.getElem?_cons_zero, Option.some.injEq] at h
      subst h
      simp [List.count_cons]
    | succ v =>
      simp only [List.getElem?_cons_succ] at h
      simp only [List.set_cons_succ, List.count_cons]
      have := ih v h
      omega

theorem count_false_pos (vis : List Bool) (v : Nat) (h : vis[v]? = some false) :
    0 < vis.count false :=
  List.count_pos_iff.2 (List.getElem?_mem h)

theorem postOrdered_snoc (g : Graph) (ord : List Nat) (v : Nat) (h : PostOrdered g ord)
    (hs : ∀ w, gEdge g v w → w ∈ ord) (hv : v ∉ ord) : PostOrdered g (ord ++ [v]) := by
  intro p u s heq
  rcases List.eq_nil_or_concat s with hs0 | ⟨L, b, hL⟩
  · subst hs0
    have := List.append_inj' heq rfl
    obtain ⟨h1, h2⟩ := this
    simp only [List.cons.injEq, and_true] at h2
    subst h1; subst h2
    exact ⟨hs, hv⟩
  · rw [List.concat_eq_append] at hL
    subst hL
    have heq2 : ord ++ [v] = (p ++ u :: L) ++ [b] := by simpa using heq
    have := (List.append_inj' heq2 rfl).1
    exact h p u L this

theorem dfsExt_refl (st : List Bool × List Nat) : DfsExt st st :=
  ⟨fun _ h => h, fun _ => ⟨fun h => Or.inl h, fun h => h.elim id (fun h2 => absurd h2.1 h2.2)⟩,
    le_refl _⟩

theorem dfsExt_trans {a b c : List Bool × List Nat} (h1 : DfsExt a b) (h2 : DfsExt b c) :
    DfsExt a c := by
  obtain ⟨m1, c1, k1⟩ := h1
  obtain ⟨m2, c2, k2⟩ := h2
  refine ⟨fun u h => m2 u (m1 u h), ?_, le_trans k2 k1⟩
  intro u
  rw [c2 u, c1 u]
  constructor
  · rintro ((h | h) | h)
    · exact Or.inl h
    · exact Or.inr ⟨m2 u h.1, h.2⟩
    · exact Or.inr ⟨h.1, fun hu => h.2 (m1 u hu)⟩
  · rintro (h | h)
    · exact Or.inl (Or.inl h)
    · by_cases hb : Vis b.1 u
      · exact Or.inl (Or.inr ⟨hb, h.2⟩)
      · exact Or.inr ⟨h.1, hb⟩

/-- The loop of `dfsOrder` over the edges of `v`, given the contract of the
recursive calls. -/
theorem dfsOrder_loop (g : Graph) (n : Nat) (hE : ∀ u w, gEdge g u w → w < n)
    (hac : ∀ u, ¬ Relation.TransGen (gEdge g) u u) (fuel : Nat)
    (ih : ∀ v st, DfsInv g n st → st.1[v]? = some false →
      (∀ u, Vis st.1 u → u ∉ st.2 → Relation.TransGen (gEdge g) u v) →
      st.1.count false ≤ fuel →
      DfsInv g n (dfsOrder g fuel v st) ∧ DfsExt st (dfsOrder g fuel v st) ∧
        Vis (dfsOrder g fuel v st).1 v)
    (v : Nat) :
    ∀ (es : List Edge) (st : List Bool × List Nat), (∀ e ∈ es, gEdge g v e.to_) →
      DfsInv g n st → Vis st.1 v → v ∉ st.2 →
      (∀ u, Vis st.1 u → u ∉ st.2 → u = v ∨ Relation.TransGen (gEdge g) u v) →
      st.1.count false ≤ fuel →
      DfsInv g n (es.foldl
        (fun s edge => if !(s.1.getD edge.to_ true) then dfsOrder g fuel edge.to_ s else s) st) ∧
      DfsExt st (es.foldl
        (fun s edge => if !(s.1.getD edge.to_ true) then dfsOrder g fuel edge.to_ s else s) st) ∧
      ∀ e ∈ es, e.to_ ∈ (es.foldl
        (fun s edge => if !(s.1.getD edge.to_ true) then dfsOrder g fuel edge.to_ s else s) st).2 := by
  intro es
  induction es with
  | nil =>
    intro st _ hinv _ _ _ _
    exact ⟨hinv, dfsExt_refl st, fun e he => absurd he (List.not_mem_nil _)⟩
  | cons e es ihes =>
    intro st hes hinv hv hvo hgray hcount
    have hedge : gEdge g v e.to_ := hes e (List.mem_cons_self _ _)
    have hes2 : ∀ e1 ∈ es, gEdge g v e1.to_ := fun e1 h1 => hes e1 (List.mem_cons_of_mem _ h1)
    have hw : e.to_ < st.1.length := by rw [hinv.1]; exact hE v _ hedge
    simp only [List.foldl_cons]
    cases hb : st.1[e.to_] with
    | false =>
      have hb2 : st.1[e.to_]? = some false := by rw [List.getElem?_eq_getElem hw, hb]
      have hcond : (!(st.1.getD e.to_ true)) = true := by
        simp [List.getD_eq_getElem?_getD, hb2]
      simp only [hcond, if_true]
      obtain ⟨i1, x1, v1⟩ := ih e.to_ st hinv hb2
        (fun u hu huo => by
          rcases hgray u hu huo with h | h
          · subst h; exact Relation.TransGen.single hedge
          · exact Relation.TransGen.tail h hedge)
        hcount
      have hv1 : Vis (dfsOrder g fuel e.to_ st).1 v := x1.1 v hv
      have hvo1 : v ∉ (dfsOrder g fuel e.to_ st).2 := by
        rw [x1.2.1 v]
        rintro (h | h)
        · exact hvo h
        · exact h.2 hv
      have hgray1 : ∀ u, Vis (dfsOrder g fuel e.to_ st).1 u → u ∉ (dfsOrder g fuel e.to_ st).2 →
          u = v ∨ Relation.TransGen (gEdge g) u v := by
        intro u hu huo
        rw [x1.2.1 u] at huo
        have hu0 : Vis st.1 u := by
          by_contra hc
          exact huo (Or.inr ⟨hu, hc⟩)
        exact hgray u hu0 (fun h => huo (Or.inl h))
      obtain ⟨i2, x2, t2⟩ := ihes (dfsOrder g fuel e.to_ st) hes2 i1 hv1 hvo1 hgray1
        (le_trans x1.2.2 hcount)
      refine ⟨i2, dfsExt_trans x1 x2, ?_⟩
      intro e1 he1
      rcases List.mem_cons.1 he1 with h | h
      · subst h
        rw [x2.2.1]
        left
        rw [x1.2.1]
        right
        refine ⟨v1, ?_⟩
        unfold Vis
        rw [hb2]
        simp
      · exact t2 e1 h
    | true =>
      have hb2 : st.1[e.to_]? = some true := by rw [List.getElem?_eq_getElem hw, hb]
      have hcond : (!(st.1.getD e.to_ true)) = false := by
        simp [List.getD_eq_getElem?_getD, hb2]
      simp only [hcond, Bool.false_eq_true, if_false]
      obtain ⟨i2, x2, t2⟩ := ihes st hes2 hinv hv hvo hgray hcount
      refine ⟨i2, x2, ?_⟩
      intro e1 he1
      rcases List.mem_cons.1 he1 with h | h
      · subst h
        rw [x2.2.1]
        left
        by_contra hno
        rcases hgray _ hb2 hno with h | h
        · rw [h] at hedge
          exact hac v (Relation.TransGen.single hedge)
        · exact hac _ (Relation.TransGen.tail h hedge)
      · exact t2 e1 h

/-- The contract of `dfsOrder` on an acyclic graph: called with enough fuel on
an unmarked vertex that every marked vertex outside `order` reaches, it marks
that vertex, adds the newly marked vertices to `order` and keeps the invariant. -/
theorem dfsOrder_spec (g : Graph) (n : Nat) (hE : ∀ u w, gEdge g u w → w < n)
    (hac : ∀ u, ¬ Relation.TransGen (gEdge g) u u) :
    ∀ fuel v st, DfsInv g n st → st.1[v]? = some false →
      (∀ u, Vis st.1 u → u ∉ st.2 → Relation.TransGen (gEdge g) u v) →
      st.1.count false ≤ fuel →
      DfsInv g n (dfsOrder g fuel v st) ∧ DfsExt st (dfsOrder g fuel v st) ∧
        Vis (dfsOrder g fuel v st).1 v := by
  intro fuel
  induction fuel with
  | zero =>
    intro v st _ hv _ hc
    have := count_false_pos st.1 v hv
    omega
  | succ fuel ih =>
    intro v st hinv hv hgray hcount
    have hvn : v < st.1.length := by
      by_contra hc
      have : st.1[v]? = none := List.getElem?_eq_none (by omega)
      rw [this] at hv; simp at hv
    have hnv : ¬ Vis st.1 v := by unfold Vis; rw [hv]; simp
    have hvo : v ∉ st.2 := fun h => hnv (hinv.2.1 v h)
    have hinv0 : DfsInv g n (st.1.set v true, st.2) := by
      refine ⟨by simpa using hinv.1, ?_, hinv.2.2⟩
      intro u hu
      exact (vis_set st.1 v u).2 (Or.inr (hinv.2.1 u hu))
    have hv0 : Vis (st.1.set v true, st.2).1 v := (vis_set st.1 v v).2 (Or.inl ⟨rfl, hvn⟩)
    have hgray0 : ∀ u, Vis (st.1.set v true, st.2).1 u → u ∉ (st.1.set v true, st.2).2 →
        u = v ∨ Relation.TransGen (gEdge g) u v := by
      intro u hu huo
      rcases (vis_set st.1 v u).1 hu with h | h
      · exact Or.inl h.1
      · exact Or.inr (hgray u h huo)
    have hcount0 : (st.1.set v true, st.2).1.count false ≤ fuel := by
      have := count_false_set st.1 v hv
      simp only
      omega
    obtain ⟨i1, x1, t1⟩ := dfsOrder_loop g n hE hac fuel ih v (edgesOf g v)
      (st.1.set v true, st.2) (fun e he => ⟨e, he, rfl⟩) hinv0 hv0 hvo hgray0 hcount0
    simp only [dfsOrder]
    have hvo1 : v ∉ (List.foldl
        (fun s edge => if !(s.1.getD edge.to_ true) then dfsOrder g fuel edge.to_ s else s)
        (st.1.set v true, st.2) (edgesOf g v)).2 := by
      rw [x1.2.1 v]
      rintro (h | h)
      · exact hvo h
      · exact h.2 hv0
    refine ⟨⟨i1.1, ?_, ?_⟩, ⟨?_, ?_, ?_⟩, x1.1 v hv0⟩
    · intro u hu
      rcases List.mem_append.1 hu with h | h
      · exact i1.2.1 u h
      · simp only [List.mem_singleton] at h
        subst h
        exact x1.1 u hv0
    · exact postOrdered_snoc g _ v i1.2.2
        (fun w hw => by
          obtain ⟨e, he, hew⟩ := hw
          rw [← hew]
          exact t1 e he)
        hvo1
    · intro u hu
      exact x1.1 u ((vis_set st.1 v u).2 (Or.inr hu))
    · intro u
      simp only [List.mem_append, List.mem_singleton]
      rw [x1.2.1 u]
      constructor
      · rintro ((h | h) | h)
        · exact Or.inl h
        · exact Or.inr ⟨h.1, fun hu => h.2 ((vis_set st.1 v u).2 (Or.inr hu))⟩
        · subst h
          exact Or.inr ⟨x1.1 u hv0, hnv⟩
      · rintro (h | h)
        · exact Or.inl (Or.inl h)
        · by_cases huv : u = v
          · exact Or.inr huv
          · refine Or.inl (Or.inr ⟨h.1, ?_⟩)
            intro hu
            rcases (vis_set st.1 v u).1 hu with h2 | h2
            · exact huv h2.1
            · exact h.2 h2
    · have := count_false_set st.1 v hv
      have h2 := x1.2.2
      simp only at h2 ⊢
      omega

theorem vis_lt {vis : List Bool} {u : Nat} (h : Vis vis u) : u < vis.length := by
  unfold Vis at h
  by_contra hc
  have : vis[u]? = none := List.getElem?_eq_none (by omega)
  rw [this] at h; simp at h

/-- The loop of the first pass over the vertices below `k`. -/
theorem buildOrder_loop (g : Graph) (n : Nat) (hE : ∀ u w, gEdge g u w → w < n)
    (hac : ∀ u, ¬ Relation.TransGen (gEdge g) u u) :
    ∀ k, k ≤ n →
      DfsInv g n ((List.range k).foldl
        (fun st v => if !(st.1.getD v true) then dfsOrder g n v st else st)
        (List.replicate n false, [])) ∧
      (∀ u, Vis ((List.range k).foldl
        (fun st v => if !(st.1.getD v true) then dfsOrder g n v st else st)
        (List.replicate n false, [])).1 u →
        u ∈ ((List.range k).foldl
        (fun st v => if !(st.1.getD v true) then dfsOrder g n v st else st)
        (List.replicate n false, [])).2) ∧
      (∀ u, u < k → Vis ((List.range k).foldl
        (fun st v => if !(st.1.getD v true) then dfsOrder g n v st else st)
        (List.replicate n false, [])).1 u) := by
  intro k
  induction k with
  | zero =>
    intro _
    refine ⟨⟨by simp, by simp, ?_⟩, ?_, ?_⟩
    · intro p v s h
      simp at h
    · intro u hu
      simp only [List.range_zero, List.foldl_nil] at hu
      unfold Vis at hu
      rw [List.getElem?_replicate] at hu
      split at hu <;> simp at hu
    · intro u hu; omega
  | succ k ih =>
    intro hk
    obtain ⟨hinv, hgray, hvis⟩ := ih (by omega)
    rw [List.range_succ, List.foldl_append]
    simp only [List.foldl_cons, List.foldl_nil]
    generalize (List.range k).foldl
        (fun st v => if !(st.1.getD v true) then dfsOrder g n v st else st)
        (List.replicate n false, []) = st at hinv hgray hvis ⊢
    have hkl : k < st.1.length := by rw [hinv.1]; omega
    cases hb : st.1[k] with
    | false =>
      have hb2 : st.1[k]? = some false := by rw [List.getElem?_eq_getElem hkl, hb]
      have hcond : (!(st.1.getD k true)) = true := by
        simp [List.getD_eq_getElem?_getD, hb2]
      simp only [hcond, if_true]
      obtain ⟨i1, x1, v1⟩ := dfsOrder_spec g n hE hac n k st hinv hb2
        (fun u hu huo => absurd (hgray u hu) huo)
        (by rw [← hinv.1]; exact List.count_le_length _ _)
      refine ⟨i1, ?_, ?_⟩
      · intro u hu
        rw [x1.2.1 u]
        by_cases h0 : Vis st.1 u
        · exact Or.inl (hgray u h0)
        · exact Or.inr ⟨hu, h0⟩
      · intro u hu
        by_cases huk : u = k
        · subst huk; exact v1
        · exact x1.1 u (hvis u (by omega))
    | true =>
      have hb2 : st.1[k]? = some true := by rw [List.getElem?_eq_getElem hkl, hb]
      have hcond : (!(st.1.getD k true)) = false := by
        simp [List.getD_eq_getElem?_getD, hb2]
      simp only [hcond, Bool.false_eq_true, if_false]
      refine ⟨hinv, hgray, ?_⟩
      intro u hu
      by_cases huk : u = k
      · subst huk; exact hb2
      · exact hvis u (by omega)

/-- On an acyclic graph the first pass lists every vertex once, after all its
successors. -/
theorem buildOrder_spec (g : Graph) (hE : ∀ u w, gEdge g u w → w < g.vertexes.length)
    (hac : ∀ u, ¬ Relation.TransGen (gEdge g) u u) :
    PostOrdered g (buildOrder g) ∧ ∀ u, u ∈ buildOrder g ↔ u < g.vertexes.length := by
  obtain ⟨hinv, hgray, hvis⟩ := buildOrder_loop g g.vertexes.length hE hac g.vertexes.length
    (le_refl _)
  refine ⟨hinv.2.2, ?_⟩
  intro u
  constructor
  · intro hu
    have := vis_lt (hinv.2.1 u hu)
    rw [hinv.1] at this
    exact this
  · intro hu
    exact hgray u (hvis u hu)

/-! ## The second pass on an acyclic graph -/

theorem componentAt_of_some {cs : List (Option Nat)} {u i : Nat} (h : cs[u]? = some (some i)) :
    componentAt cs u = i := by
  simp [componentAt, h]

theorem componentAt_set_ne (cs : List (Option Nat)) (v u : Nat) (x : Option Nat) (h : v ≠ u) :
    componentAt (cs.set v x) u = componentAt cs u := by
  simp [componentAt, List.getElem?_set_ne h]

/-- With all successors numbered, the loop of `dfsComponents` changes nothing. -/
theorem dfsComponents_loop_skip (g : Graph) (fuel c : Nat) (es : List Edge)
    (cs : List (Option Nat)) (h : ∀ e ∈ es, ∃ i, cs[e.to_]? = some (some i)) :
    es.foldl
      (fun cs edge =>
        if cs.getD edge.to_ (some 0) = none then dfsComponents g fuel edge.to_ cs c else cs)
      cs = cs := by
  induction es with
  | nil => rfl
  | cons e es ih =>
    simp only [List.foldl_cons]
    obtain ⟨i, hi⟩ := h e (List.mem_cons_self _ _)
    have hc : ¬ (cs.getD e.to_ (some 0) = none) := by
      simp [List.getD_eq_getElem?_getD, hi]
    simp only [hc, if_false]
    exact ih (fun e1 h1 => h e1 (List.mem_cons_of_mem _ h1))

theorem postOrdered_succ_mem (g : Graph) (p s : List Nat) (h : PostOrdered g (p ++ s))
    (u : Nat) (hu : u ∈ p) (w : Nat) (hw : gEdge g u w) : w ∈ p := by
  obtain ⟨p1, p2, hp⟩ := List.append_of_mem hu
  have := (h p1 u (p2 ++ s) (by rw [hp]; simp)).1 w hw
  rw [hp]
  exact List.mem_append_left _ this

/-- The loop of the second pass over the rest `s` of `order`. -/
theorem buildComponents_loop (g : Graph) (n : Nat) :
    ∀ (s p : List Nat) (cs : List (Option Nat) × Nat), PostOrdered g (p ++ s) →
      (∀ u ∈ s, u < n) → CompInv g n p cs →
      CompInv g n (p ++ s) (s.foldl
        (fun cs v =>
          if cs.1.getD v (some 0) = none then
            (dfsComponents (reverseGraph g) n v cs.1 cs.2, cs.2 + 1)
          else cs)
        cs) := by
  intro s
  induction s with
  | nil => intro p cs _ _ h; simpa using h
  | cons v s ih =>
    intro p cs hpo hlt hinv
    obtain ⟨hlen, hcnt, hnum, hnone, hedge⟩ := hinv
    have hv : v < n := hlt v (List.mem_cons_self _ _)
    obtain ⟨hsucc, hvp⟩ := hpo p v s rfl
    have hvnone : cs.1[v]? = some none := hnone v hv hvp
    simp only [List.foldl_cons]
    have hc : cs.1.getD v (some 0) = none := by
      simp [List.getD_eq_getElem?_getD, hvnone]
    simp only [hc, if_true]
    obtain ⟨m, hm⟩ : ∃ m, n = m + 1 := ⟨n - 1, by omega⟩
    have hdfs : dfsComponents (reverseGraph g) n v cs.1 cs.2 = cs.1.set v (some cs.2) := by
      rw [hm]
      show dfsComponents g (m + 1) v cs.1 cs.2 = _
      rw [dfsComponents]
      apply dfsComponents_loop_skip
      intro e he
      have hin : e.to_ ∈ p := hsucc e.to_ ⟨e, he, rfl⟩
      obtain ⟨i, _, hi⟩ := hnum e.to_ hin
      refine ⟨i, ?_⟩
      rw [List.getElem?_set_ne (ne_of_mem_of_not_mem hin hvp).symm]
      exact hi
    rw [hdfs]
    have hstep : CompInv g n (p ++ [v]) (cs.1.set v (some cs.2), cs.2 + 1) := by
      refine ⟨by simpa using hlen, by simp [hcnt], ?_, ?_, ?_⟩
      · intro u hu
        rcases List.mem_append.1 hu with h | h
        · obtain ⟨i, hi, hiu⟩ := hnum u h
          refine ⟨i, by simp; omega, ?_⟩
          simp only
          rw [List.getElem?_set_ne (ne_of_mem_of_not_mem h hvp).symm]
          exact hiu
        · simp only [List.mem_singleton] at h
          subst h
          refine ⟨p.length, by simp, ?_⟩
          simp only
          rw [List.getElem?_set, if_pos rfl, if_pos (by omega), hcnt]
      · intro u hu hup
        simp only [List.mem_append, List.mem_singleton, not_or] at hup
        simp only
        rw [List.getElem?_set_ne (fun e => hup.2 e.symm)]
        exact hnone u hu hup.1
      · intro u hu w hw
        simp only
        rcases List.mem_append.1 hu with h | h
        · have hwp : w ∈ p := postOrdered_succ_mem g p (v :: s) hpo u h w hw
          rw [componentAt_set_ne _ _ _ _ (ne_of_mem_of_not_mem hwp hvp).symm,
            componentAt_set_ne _ _ _ _ (ne_of_mem_of_not_mem h hvp).symm]
          exact hedge u h w hw
        · simp only [List.mem_singleton] at h
          subst h
          have hwp : w ∈ p := hsucc w hw
          obtain ⟨i, hi, hiw⟩ := hnum w hwp
          rw [componentAt_set_ne _ _ _ _ (ne_of_mem_of_not_mem hwp hvp).symm, componentAt_of_some hiw]
          have : (cs.1.set u (some cs.2))[u]? = some (some cs.2) := by
            rw [List.getElem?_set, if_pos rfl, if_pos (by omega)]
          rw [componentAt_of_some this, hcnt]
          exact hi
    have := ih (p ++ [v]) _ (by simpa using hpo)
      (fun u hu => hlt u (List.mem_cons_of_mem _ hu)) hstep
    simpa using this

/-- On an acyclic graph the second pass numbers every vertex below the count
and every edge goes to a smaller number. -/
theorem buildComponents_spec (g : Graph) (hE : ∀ u w, gEdge g u w → w < g.vertexes.length)
    (hac : ∀ u, ¬ Relation.TransGen (gEdge g) u u) :
    (∀ u, u < g.vertexes.length →
      componentAt (buildComponents g (buildOrder g)).1 u < (buildComponents g (buildOrder g)).2) ∧
    (∀ u w, u < g.vertexes.length → gEdge g u w →
      componentAt (buildComponents g (buildOrder g)).1 w
        < componentAt (buildComponents g (buildOrder g)).1 u) := by
  obtain ⟨hpo, hmem⟩ := buildOrder_spec g hE hac
  have h0 : CompInv g g.vertexes.length [] (List.replicate g.vertexes.length none, 0) := by
    refine ⟨by simp, rfl, by simp, ?_, by simp⟩
    intro u hu _
    simp [List.getElem?_replicate, hu]
  have := buildComponents_loop g g.vertexes.length (buildOrder g) [] _
    (by simpa using hpo) (fun u hu => (hmem u).1 hu) h0
  simp only [List.nil_append] at this
  obtain ⟨_, hcnt, hnum, _, hedge⟩ := this
  constructor
  · intro u hu
    obtain ⟨i, hi, hiu⟩ := hnum u ((hmem u).2 hu)
    show componentAt _ u < _
    have h1 : componentAt (buildComponents g (buildOrder g)).1 u = i := componentAt_of_some hiu
    have h2 : (buildComponents g (buildOrder g)).2 = (buildOrder g).length := hcnt
    rw [h1, h2]
    exact hi
  · intro u w hu hw
    exact hedge u ((hmem u).2 hu) w hw

/-! ## The collapsed graph -/

theorem pushAt_length {α : Type} (xs : List (List α)) (i : Nat) (x : α) :
    (pushAt xs i x).length = xs.length := by
  induction xs generalizing i with
  | nil => rfl
  | cons l rest ih =>
    cases i with
    | zero => rfl
    | succ i => simp [pushAt, ih]

theorem mem_pushAt {α : Type} (xs : List (List α)) (i j : Nat) (x y : α) :
    y ∈ (pushAt xs i x)[j]?.getD [] ↔
      y ∈ xs[j]?.getD [] ∨ (i = j ∧ j < xs.length ∧ y = x) := by
  induction xs generalizing i j with
  | nil => simp [pushAt]
  | cons l rest ih =>
    cases i with
    | zero =>
      cases j with
      | zero => simp [pushAt]
      | succ j => simp [pushAt]
    | succ i =>
      cases j with
      | zero => simp [pushAt]
      | succ j =>
        simp only [pushAt, List.getElem?_cons_succ, List.length_cons]
        rw [ih i j]
        simp

theorem appendAt_length (vs : List EqualComponent) (i : Nat) (xs : List Ast) :
    (appendAt vs i xs).length = vs.length := by
  induction vs generalizing i with
  | nil => rfl
  | cons c rest ih =>
    cases i with
    | zero => rfl
    | succ i => simp [appendAt, ih]

theorem lookup_mapAssign (m : List (Nat × Nat)) (k v a : Nat) :
    (mapAssign m k v).lookup a = if a = k then some v else m.lookup a := by
  induction m with
  | nil =>
    by_cases h : a = k
    · subst h; simp [mapAssign, List.lookup]
    · have : (a == k) = false := by simpa using h
      simp [mapAssign, List.lookup, this, h]
  | cons p rest ih =>
    obtain ⟨pk, pv⟩ := p
    by_cases hp : pk = k
    · subst hp
      by_cases h : a = pk
      · subst h; simp [mapAssign, List.lookup]
      · have : (a == pk) = false := by simpa using h
        simp [mapAssign, List.lookup, this, h]
    · by_cases h : a = pk
      · subst h
        have hak : ¬ a = k := hp
        simp [mapAssign, hp, List.lookup, hak]
      · have h1 : (a == pk) = false := by simpa using h
        simp only [mapAssign, hp, if_false, List.lookup, h1, ih]

theorem lookup_none_of_not_mem (m : List (Nat × Nat)) (k : Nat)
    (h : k ∉ m.map Prod.fst) : m.lookup k = none := by
  induction m with
  | nil => rfl
  | cons p rest ih =>
    obtain ⟨pk, pv⟩ := p
    simp only [List.map_cons, List.mem_cons, not_or] at h
    have h1 : (k == pk) = false := by simpa using h.1
    simp only [List.lookup, h1]
    exact ih h.2

theorem lookup_mem_keys (m : List (Nat × Nat)) (k i : Nat) (h : m.lookup k = some i) :
    k ∈ m.map Prod.fst := by
  by_contra hc
  rw [lookup_none_of_not_mem m k hc] at h
  simp at h

/-- The lookup index written by the first loop of the collapse. -/
theorem lookup_collapse_fold (f : Nat → Nat) (l : List (Nat × Nat))
    (hl : (l.map Prod.fst).Nodup) (m : List (Nat × Nat)) (k : Nat) :
    (l.foldl (fun m p => mapAssign m p.1 (f p.2)) m).lookup k =
      match l.lookup k with
      | some i => some (f i)
      | none => m.lookup k := by
  induction l generalizing m with
  | nil => rfl
  | cons p rest ih =>
    obtain ⟨pk, pv⟩ := p
    simp only [List.map_cons, List.nodup_cons] at hl
    simp only [List.foldl_cons]
    rw [ih hl.2]
    by_cases h : k = pk
    · subst h
      rw [lookup_none_of_not_mem rest k hl.1]
      simp [lookup_mapAssign, List.lookup]
    · have h1 : (k == pk) = false := by simpa using h
      simp only [List.lookup, h1, lookup_mapAssign, h, if_false]

/-- The first loop of the collapse, field by field. -/
theorem collapse_loop1 (g : Graph) (cs : List (Option Nat)) (l : List (Nat × Nat)) (r : Graph) :
    (l.foldl
      (fun r p =>
        { r with
          ast_hash_to_component := mapAssign r.ast_hash_to_component p.1 (componentAt cs p.2)
          vertexes := appendAt r.vertexes (componentAt cs p.2) (astsOf g p.2) })
      r).ast_hash_to_component
      = l.foldl (fun m p => mapAssign m p.1 (componentAt cs p.2)) r.ast_hash_to_component ∧
    (l.foldl
      (fun r p =>
        { r with
          ast_hash_to_component := mapAssign r.ast_hash_to_component p.1 (componentAt cs p.2)
          vertexes := appendAt r.vertexes (componentAt cs p.2) (astsOf g p.2) })
      r).vertexes.length = r.vertexes.length ∧
    (l.foldl
      (fun r p =>
        { r with
          ast_hash_to_component := mapAssign r.ast_hash_to_component p.1 (componentAt cs p.2)
          vertexes := appendAt r.vertexes (componentAt cs p.2) (astsOf g p.2) })
      r).edges = r.edges := by
  induction l generalizing r with
  | nil => exact ⟨rfl, rfl, rfl⟩
  | cons p rest ih =>
    simp only [List.foldl_cons]
    obtain ⟨h1, h2, h3⟩ := ih
      { r with
        ast_hash_to_component := mapAssign r.ast_hash_to_component p.1 (componentAt cs p.2)
        vertexes := appendAt r.vertexes (componentAt cs p.2) (astsOf g p.2) }
    refine ⟨h1, ?_, h3⟩
    rw [h2]
    exact appendAt_length _ _ _

/-- The inner loop of the second loop of the collapse, field by field. -/
theorem collapse_loop2_inner (cs : List (Option Nat)) (v : Nat) (l : List Edge) (r : Graph) :
    l.foldl
      (fun r edge =>
        { r with
          edges := pushAt r.edges (componentAt cs v) ⟨edge.type, componentAt cs edge.to_⟩ })
      r
      = { r with
          edges := l.foldl
            (fun es edge => pushAt es (componentAt cs v) ⟨edge.type, componentAt cs edge.to_⟩)
            r.edges } := by
  induction l generalizing r with
  | nil => rfl
  | cons e rest ih =>
    simp only [List.foldl_cons]
    rw [ih]

/-- The second loop of the collapse, field by field. -/
theorem collapse_loop2 (g : Graph) (cs : List (Option Nat)) (vs : List Nat) (r : Graph) :
    vs.foldl
      (fun r v => (edgesOf g v).foldl
        (fun r edge =>
          { r with
            edges := pushAt r.edges (componentAt cs v) ⟨edge.type, componentAt cs edge.to_⟩ })
        r)
      r
      = { r with
          edges := vs.foldl
            (fun es v => (edgesOf g v).foldl
              (fun es edge =>
                pushAt es (componentAt cs v) ⟨edge.type, componentAt cs edge.to_⟩)
              es)
            r.edges } := by
  induction vs generalizing r with
  | nil => rfl
  | cons v rest ih =>
    simp only [List.foldl_cons]
    rw [collapse_loop2_inner, ih]

theorem collapse_inner_length (cs : List (Option Nat)) (v : Nat) (l : List Edge)
    (es : List (List Edge)) :
    (l.foldl
      (fun es edge => pushAt es (componentAt cs v) ⟨edge.type, componentAt cs edge.to_⟩)
      es).length = es.length := by
  induction l generalizing es with
  | nil => rfl
  | cons e rest ih => simp only [List.foldl_cons]; rw [ih, pushAt_length]

theorem collapse_inner_mem (cs : List (Option Nat)) (v : Nat) (l : List Edge)
    (es : List (List Edge)) (j : Nat) (y : Edge) :
    y ∈ (l.foldl
      (fun es edge => pushAt es (componentAt cs v) ⟨edge.type, componentAt cs edge.to_⟩)
      es)[j]?.getD [] ↔
      y ∈ es[j]?.getD [] ∨
        (componentAt cs v = j ∧ j < es.length ∧
          ∃ e ∈ l, y = ⟨e.type, componentAt cs e.to_⟩) := by
  induction l generalizing es with
  | nil => simp
  | cons e rest ih =>
    simp only [List.foldl_cons]
    rw [ih, mem_pushAt, pushAt_length]
    constructor
    · rintro ((h | ⟨h1, h2, h3⟩) | ⟨h1, h2, e1, he1, h3⟩)
      · exact Or.inl h
      · exact Or.inr ⟨h1, h2, e, List.mem_cons_self _ _, h3⟩
      · exact Or.inr ⟨h1, h2, e1, List.mem_cons_of_mem _ he1, h3⟩
    · rintro (h | ⟨h1, h2, e1, he1, h3⟩)
      · exact Or.inl (Or.inl h)
      · rcases List.mem_cons.1 he1 with h | h
        · subst h; exact Or.inl (Or.inr ⟨h1, h2, h3⟩)
        · exact Or.inr ⟨h1, h2, e1, h, h3⟩

theorem collapse_outer_length (g : Graph) (cs : List (Option Nat)) (vs : List Nat)
    (es : List (List Edge)) :
    (vs.foldl
      (fun es v => (edgesOf g v).foldl
        (fun es edge => pushAt es (componentAt cs v) ⟨edge.type, componentAt cs edge.to_⟩)
        es)
      es).length = es.length := by
  induction vs generalizing es with
  | nil => rfl
  | cons v rest ih => simp only [List.foldl_cons]; rw [ih, collapse_inner_length]

theorem collapse_outer_mem (g : Graph) (cs : List (Option Nat)) (vs : List Nat)
    (es : List (List Edge)) (j : Nat) (y : Edge) :
    y ∈ (vs.foldl
      (fun es v => (edgesOf g v).foldl
        (fun es edge => pushAt es (componentAt cs v) ⟨edge.type, componentAt cs edge.to_⟩)
        es)
      es)[j]?.getD [] ↔
      y ∈ es[j]?.getD [] ∨
        (j < es.length ∧ ∃ v ∈ vs, componentAt cs v = j ∧
          ∃ e ∈ edgesOf g v, y = ⟨e.type, componentAt cs e.to_⟩) := by
  induction vs generalizing es with
  | nil => simp
  | cons v rest ih =>
    simp only [List.foldl_cons]
    rw [ih, collapse_inner_mem, collapse_inner_length]
    constructor
    · rintro ((h | ⟨h1, h2, h3⟩) | ⟨h1, v1, hv1, h2, h3⟩)
      · exact Or.inl h
      · exact Or.inr ⟨h2, v, List.mem_cons_self _ _, h1, h3⟩
      · exact Or.inr ⟨h1, v1, List.mem_cons_of_mem _ hv1, h2, h3⟩
    · rintro (h | ⟨h1, v1, hv1, h2, h3⟩)
      · exact Or.inl (Or.inl h)
      · rcases List.mem_cons.1 hv1 with h | h
        · subst h; exact Or.inl (Or.inr ⟨h2, h1, h3⟩)
        · exact Or.inr ⟨h1, v1, h, h2, h3⟩

/-- The number of vertices of the collapsed graph is the component count. -/
theorem build_vertexes_length (g : Graph) :
    (BuildGraphFromAstsGraph g).vertexes.length = (buildComponents g (buildOrder g)).2 := by
  unfold BuildGraphFromAstsGraph
  simp only [collapse_loop2]
  rw [(collapse_loop1 g _ _ _).2.1]
  simp

/-- The lookup index of the collapsed graph, for a source index with distinct keys. -/
theorem build_lookup (g : Graph) (hk : (g.ast_hash_to_component.map Prod.fst).Nodup) (k : Nat) :
    (BuildGraphFromAstsGraph g).ast_hash_to_component.lookup k =
      (g.ast_hash_to_component.lookup k).map
        (componentAt (buildComponents g (buildOrder g)).1) := by
  unfold BuildGraphFromAstsGraph
  simp only [collapse_loop2]
  rw [(collapse_loop1 g _ _ _).1, lookup_collapse_fold _ _ hk]
  cases g.ast_hash_to_component.lookup k <;> rfl

/-- The edges of the collapsed graph are the retargeted edges of the fact graph. -/
theorem build_edges_mem (g : Graph) (j : Nat) (y : Edge) :
    y ∈ edgesOf (BuildGraphFromAstsGraph g) j ↔
      j < (buildComponents g (buildOrder g)).2 ∧ ∃ v, v < g.vertexes.length ∧
        componentAt (buildComponents g (buildOrder g)).1 v = j ∧
        ∃ e ∈ edgesOf g v,
          y = ⟨e.type, componentAt (buildComponents g (buildOrder g)).1 e.to_⟩ := by
  unfold edgesOf BuildGraphFromAstsGraph
  simp only [collapse_loop2]
  rw [(collapse_loop1 g _ _ _).2.2, List.getD_eq_getElem?_getD, collapse_outer_mem]
  simp only [List.length_replicate, List.mem_range]
  constructor
  · rintro (h | h)
    · rw [List.getElem?_replicate] at h
      split at h <;> simp at h
    · simpa [edgesOf] using h
  · intro h
    right
    simpa [edgesOf] using h

/-! ## The fact graph built by the constructor -/

theorem mapAssign_of_not_mem (m : List (Nat × Nat)) (k v : Nat)
    (h : k ∉ m.map Prod.fst) : mapAssign m k v = m ++ [(k, v)] := by
  induction m with
  | nil => rfl
  | cons p rest ih =>
    simp only [List.map_cons, List.mem_cons, not_or] at h
    have h1 : ¬ p.1 = k := fun e => h.1 e.symm
    simp only [mapAssign, h1, if_false, ih h.2, List.cons_append]

theorem not_mem_keys_of_lookup_none (m : List (Nat × Nat)) (k : Nat)
    (h : m.lookup k = none) : k ∉ m.map Prod.fst := by
  induction m with
  | nil => simp
  | cons p rest ih =>
    obtain ⟨pk, pv⟩ := p
    by_cases hk : k = pk
    · subst hk; simp [List.lookup] at h
    · have h1 : (k == pk) = false := by simpa using hk
      simp only [List.lookup, h1] at h
      simp only [List.map_cons, List.mem_cons, not_or]
      exact ⟨hk, ih h⟩

theorem graphExt_refl (g : Graph) : GraphExt g g :=
  ⟨fun _ _ h => h, fun _ _ h => h⟩

theorem graphExt_trans {a b c : Graph} (h1 : GraphExt a b) (h2 : GraphExt b c) :
    GraphExt a c :=
  ⟨fun k i h => h2.1 k i (h1.1 k i h), fun u e h => h2.2 u e (h1.2 u e h)⟩

/-- The lambda `get_index` on an expression of `S`, with distinct hashes in
`S`: it returns an index, never `bad_term`, and keeps the invariant. -/
theorem get_index_spec (S : List Ast) (facts : List Atom)
    (hS : ∀ x ∈ S, ∀ y ∈ S, x.treeHash = y.treeHash → x = y)
    (g : Graph) (hg : FactInv S facts g) (x : Ast) (hx : x ∈ S) :
    ∃ i, (get_index x g).1 = some i ∧ FactInv S facts (get_index x g).2 ∧
      (get_index x g).2.ast_hash_to_component.lookup x.treeHash = some i ∧
      GraphExt g (get_index x g).2 := by
  obtain ⟨hlen, hnd, hidx, hed⟩ := hg
  unfold get_index
  cases hl : g.ast_hash_to_component.lookup x.treeHash with
  | some i =>
    obtain ⟨hi, c, hc, hck, hca⟩ := hidx _ _ hl
    have hcx : c = x := hS c hc x hx hck
    subst hcx
    simp only [hca, List.any_cons, List.any_nil, beq_self_eq_true, Bool.and_self, Bool.or_false,
      Bool.not_true, Bool.false_eq_true, if_false]
    exact ⟨i, rfl, ⟨hlen, hnd, hidx, hed⟩, hl, graphExt_refl g⟩
  | none =>
    simp only
    have hnk := not_mem_keys_of_lookup_none _ _ hl
    have hlk : ∀ k i, g.ast_hash_to_component.lookup k = some i →
        (mapAssign g.ast_hash_to_component x.treeHash g.vertexes.length).lookup k = some i := by
      intro k i hki
      rw [lookup_mapAssign]
      have : ¬ k = x.treeHash := by
        intro e; rw [e, hl] at hki; simp at hki
      simp only [this, if_false]
      exact hki
    have hedges : ∀ u, ∀ e ∈ (g.edges ++ [[]]).getD u [], e ∈ edgesOf g u := by
      intro u e he
      unfold edgesOf
      rw [List.getD_eq_getElem?_getD] at he ⊢
      by_cases hu : u < g.edges.length
      · rw [List.getElem?_append_left hu] at he
        exact he
      · rw [List.getElem?_append_right (by omega)] at he
        cases hd : u - g.edges.length with
        | zero => rw [hd] at he; simp at he
        | succ d => rw [hd] at he; simp at he
    refine ⟨g.vertexes.length, rfl, ⟨?_, ?_, ?_, ?_⟩, ?_, ⟨hlk, ?_⟩⟩
    · simp [hlen]
    · rw [mapAssign_of_not_mem _ _ _ hnk]
      simp only [List.map_append, List.map_cons, List.map_nil]
      rw [List.nodup_append]
      refine ⟨hnd, by simp, ?_⟩
      intro a ha hb
      simp only [List.mem_singleton] at hb
      subst hb
      exact hnk ha
    · intro k i hki
      rw [lookup_mapAssign] at hki
      by_cases hk : k = x.treeHash
      · simp only [hk, if_true, Option.some.injEq] at hki
        subst hki
        refine ⟨by simp, x, hx, hk.symm, ?_⟩
        simp [astsOf]
      · simp only [hk, if_false] at hki
        obtain ⟨hi, c, hc, hck, hca⟩ := hidx _ _ hki
        refine ⟨by simp; omega, c, hc, hck, ?_⟩
        unfold astsOf at hca ⊢
        rw [List.getD_eq_getElem?_getD] at hca ⊢
        rw [List.getElem?_append_left hi]
        exact hca
    · intro u e he
      obtain ⟨f, hf, h1, h2⟩ := hed u e (hedges u e he)
      exact ⟨f, hf, hlk _ _ h1, hlk _ _ h2⟩
    · rw [lookup_mapAssign]; simp
    · intro u e he
      unfold edgesOf at he ⊢
      rw [List.getD_eq_getElem?_getD] at he ⊢
      by_cases hu : u < g.edges.length
      · simp only
        rw [List.getElem?_append_left hu]
        exact he
      · have : g.edges[u]? = none := List.getElem?_eq_none (by omega)
        rw [this] at he
        simp at he

theorem mem_operands_of_mem {facts : List Atom} {f : Atom} (h : f ∈ facts) :
    f.left ∈ operands facts ∧ f.right ∈ operands facts := by
  induction facts with
  | nil => simp at h
  | cons a rest ih =>
    rcases List.mem_cons.1 h with h | h
    · subst h; simp [operands]
    · obtain ⟨h1, h2⟩ := ih h
      simp only [operands, List.mem_cons]
      exact ⟨Or.inr (Or.inr h1), Or.inr (Or.inr h2)⟩

/-- One iteration of the constructor loop on a `less` or `lessOrEquals` fact
with distinct hashes: the fact is accepted and its edge is added. -/
theorem addAtom_spec (S : List Ast) (facts : List Atom)
    (hS : ∀ x ∈ S, ∀ y ∈ S, x.treeHash = y.treeHash → x = y)
    (g : Graph) (hg : FactInv S facts g) (f : Atom) (hf : f ∈ facts)
    (hl : f.left ∈ S) (hr : f.right ∈ S)
    (hop : f.name = FunctionName.less ∨ f.name = FunctionName.lessOrEquals) :
    FactInv S facts (addAtom g f) ∧ GraphExt g (addAtom g f) ∧
    ∃ l r ty, relation_to_enum f.name = some ty ∧
      (addAtom g f).ast_hash_to_component.lookup f.left.treeHash = some l ∧
      (addAtom g f).ast_hash_to_component.lookup f.right.treeHash = some r ∧
      (⟨ty, l⟩ : Edge) ∈ edgesOf (addAtom g f) r := by
  obtain ⟨l, h1, inv1, lk1, ext1⟩ := get_index_spec S facts hS g hg f.left hl
  obtain ⟨r, h2, inv2, lk2, ext2⟩ :=
    get_index_spec S facts hS (get_index f.left g).2 inv1 f.right hr
  have hnorm : normalizeAtom f = f := by
    rcases hop with h | h <;> simp [normalizeAtom, inverse_relations, h]
  obtain ⟨ty, hty⟩ : ∃ ty, relation_to_enum f.name = some ty := by
    rcases hop with h | h <;> simp [relation_to_enum, h]
  have hne : ¬ f.name = FunctionName.equals := by
    rcases hop with h | h <;> simp [h]
  have hadd : addAtom g f =
      { (get_index f.right (get_index f.left g).2).2 with
        edges := pushAt (get_index f.right (get_index f.left g).2).2.edges r ⟨ty, l⟩ } := by
    unfold addAtom
    simp only [hnorm, hty, h1, h2, hne, if_false]
  rw [hadd]
  generalize (get_index f.right (get_index f.left g).2).2 = g2 at inv2 lk2 ext2 ⊢
  generalize (get_index f.left g).2 = g1 at inv1 lk1 ext1 ext2
  obtain ⟨hlen, hnd, hidx, hed⟩ := inv2
  have hrl : r < g2.edges.length := by rw [← hlen]; exact (hidx _ _ lk2).1
  have hmem : ∀ u (e : Edge), e ∈ edgesOf
      { g2 with edges := pushAt g2.edges r ⟨ty, l⟩ } u ↔
      e ∈ edgesOf g2 u ∨ (r = u ∧ u < g2.edges.length ∧ e = ⟨ty, l⟩) := by
    intro u e
    unfold edgesOf
    simp only [List.getD_eq_getElem?_getD]
    exact mem_pushAt g2.edges r u ⟨ty, l⟩ e
  refine ⟨⟨?_, hnd, hidx, ?_⟩, ⟨?_, ?_⟩, l, r, ty, hty, ext2.1 _ _ lk1, lk2, ?_⟩
  · simp only [pushAt_length]; exact hlen
  · intro u e he
    rcases (hmem u e).1 he with h | ⟨hu, _, he2⟩
    · exact hed u e h
    · subst hu; subst he2
      exact ⟨f, hf, lk2, ext2.1 _ _ lk1⟩
  · intro k i hki
    exact ext2.1 _ _ (ext1.1 _ _ hki)
  · intro u e he
    exact (hmem u e).2 (Or.inl (ext2.2 u e (ext1.2 u e he)))
  · exact (hmem r _).2 (Or.inr ⟨rfl, hrl, rfl⟩)

/-- The constructor loop on `less` and `lessOrEquals` facts with distinct
hashes: every fact is accepted and its edge is in the fact graph. -/
theorem astsGraph_loop (S : List Ast) (facts : List Atom)
    (hS : ∀ x ∈ S, ∀ y ∈ S, x.treeHash = y.treeHash → x = y) :
    ∀ (l : List Atom) (g : Graph), FactInv S facts g →
      (∀ f ∈ l, f ∈ facts ∧ f.left ∈ S ∧ f.right ∈ S ∧
        (f.name = FunctionName.less ∨ f.name = FunctionName.lessOrEquals)) →
      FactInv S facts (l.foldl addAtom g) ∧ GraphExt g (l.foldl addAtom g) ∧
      ∀ f ∈ l, ∃ a b ty, relation_to_enum f.name = some ty ∧
        (l.foldl addAtom g).ast_hash_to_component.lookup f.left.treeHash = some a ∧
        (l.foldl addAtom g).ast_hash_to_component.lookup f.right.treeHash = some b ∧
        (⟨ty, a⟩ : Edge) ∈ edgesOf (l.foldl addAtom g) b := by
  intro l
  induction l with
  | nil =>
    intro g hg _
    exact ⟨hg, graphExt_refl g, fun f hf => absurd hf (List.not_mem_nil _)⟩
  | cons f rest ih =>
    intro g hg hall
    obtain ⟨hf, hl, hr, hop⟩ := hall f (List.mem_cons_self _ _)
    obtain ⟨inv1, ext1, a, b, ty, hty, ha, hb, hedge⟩ := addAtom_spec S facts hS g hg f hf hl hr hop
    obtain ⟨inv2, ext2, hrest⟩ := ih (addAtom g f) inv1
      (fun f1 h1 => hall f1 (List.mem_cons_of_mem _ h1))
    simp only [List.foldl_cons]
    refine ⟨inv2, graphExt_trans ext1 ext2, ?_⟩
    intro f1 hf1
    rcases List.mem_cons.1 hf1 with h | h
    · subst h
      exact ⟨a, b, ty, hty, ext2.1 _ _ ha, ext2.1 _ _ hb, ext2.2 _ _ hedge⟩
    · exact hrest f1 h

/-- The fact graph of `less` and `lessOrEquals` facts with distinct hashes. -/
theorem astsGraph_spec (facts : List Atom) (hd : DistinctHashes facts)
    (hops : ∀ f ∈ facts, f.name = FunctionName.less ∨ f.name = FunctionName.lessOrEquals) :
    FactInv (operands facts) facts (astsGraph facts) ∧
    ∀ f ∈ facts, ∃ a b ty, relation_to_enum f.name = some ty ∧
      (astsGraph facts).ast_hash_to_component.lookup f.left.treeHash = some a ∧
      (astsGraph facts).ast_hash_to_component.lookup f.right.treeHash = some b ∧
      (⟨ty, a⟩ : Edge) ∈ edgesOf (astsGraph facts) b := by
  have h0 : FactInv (operands facts) facts ⟨[], [], []⟩ := by
    refine ⟨rfl, by simp, ?_, ?_⟩
    · intro k i h; simp at h
    · intro u e he; simp [edgesOf] at he
  obtain ⟨h1, _, h3⟩ := astsGraph_loop (operands facts) facts hd facts _ h0
    (fun f hf => ⟨hf, (mem_operands_of_mem hf).1, (mem_operands_of_mem hf).2, hops f hf⟩)
  exact ⟨h1, h3⟩

/-- A path of the fact graph on vertex ids is a path of the facts on expressions. -/
theorem path_transfer (facts : List Atom) (hd : DistinctHashes facts) (g : Graph)
    (hg : FactInv (operands facts) facts g) (u w : Nat)
    (h : Relation.TransGen (gEdge g) u w) :
    ∃ x y, x ∈ operands facts ∧ y ∈ operands facts ∧
      g.ast_hash_to_component.lookup x.treeHash = some u ∧
      g.ast_hash_to_component.lookup y.treeHash = some w ∧
      Relation.TransGen (factEdge facts) x y := by
  have hkey : ∀ (x y : Ast) (i : Nat), x ∈ operands facts → y ∈ operands facts →
      g.ast_hash_to_component.lookup x.treeHash = some i →
      g.ast_hash_to_component.lookup y.treeHash = some i → x = y := by
    intro x y i hx hy h1 h2
    obtain ⟨_, c1, _, hc1, ha1⟩ := hg.2.2.1 _ _ h1
    obtain ⟨_, c2, _, hc2, ha2⟩ := hg.2.2.1 _ _ h2
    rw [ha1] at ha2
    simp only [List.cons.injEq, and_true] at ha2
    subst ha2
    exact hd x hx y hy (hc1.symm.trans hc2)
  have hstep : ∀ a b, gEdge g a b → ∃ x y, x ∈ operands facts ∧ y ∈ operands facts ∧
      g.ast_hash_to_component.lookup x.treeHash = some a ∧
      g.ast_hash_to_component.lookup y.treeHash = some b ∧ factEdge facts x y := by
    intro a b hab
    obtain ⟨e, he, heb⟩ := hab
    obtain ⟨f, hf, h1, h2⟩ := hg.2.2.2 a e he
    exact ⟨f.right, f.left, (mem_operands_of_mem hf).2, (mem_operands_of_mem hf).1, h1,
      heb ▸ h2, f, hf, rfl, rfl⟩
  induction h with
  | single hab =>
    obtain ⟨x, y, hx, hy, h1, h2, h3⟩ := hstep _ _ hab
    exact ⟨x, y, hx, hy, h1, h2, Relation.TransGen.single h3⟩
  | tail _ hbc ih =>
    obtain ⟨x, y, hx, hy, h1, h2, h3⟩ := ih
    obtain ⟨y2, z, hy2, hz, h4, h5, h6⟩ := hstep _ _ hbc
    have : y = y2 := hkey y y2 _ hy hy2 h2 h4
    subst this
    exact ⟨x, z, hx, hz, h1, h5, Relation.TransGen.tail h3 h6⟩

/-- C9 (stated strict facts are answered): for every list of `less` and
`lessOrEquals` facts over expressions with pairwise distinct hashes whose fact
graph has no directed cycle, and every fact `x < y` of the list, on the graph
built from the list `compare(x, y)` is `LESS` and `compare(y, x)` is `GREATER`. -/
theorem compare_stated_less (facts : List Atom) (x y : Ast)
    (hops : ∀ f ∈ facts, f.name = FunctionName.less ∨ f.name = FunctionName.lessOrEquals)
    (hd : DistinctHashes facts)
    (hacyc : ∀ e, ¬ Relation.TransGen (factEdge facts) e e)
    (hf : (⟨FunctionName.less, x, y⟩ : Atom) ∈ facts) :
    compare (ComparisonGraph facts) x y = CompareResult.LESS ∧
    compare (ComparisonGraph facts) y x = CompareResult.GREATER := by
  obtain ⟨hg, hdone⟩ := astsGraph_spec facts hd hops
  have hE : ∀ u w, gEdge (astsGraph facts) u w → w < (astsGraph facts).vertexes.length := by
    intro u w huw
    obtain ⟨e, he, hew⟩ := huw
    obtain ⟨f, _, _, h2⟩ := hg.2.2.2 u e he
    rw [← hew]
    exact (hg.2.2.1 _ _ h2).1
  have hac : ∀ u, ¬ Relation.TransGen (gEdge (astsGraph facts)) u u := by
    intro u hu
    obtain ⟨a, b, ha, hb, h1, h2, h3⟩ := path_transfer facts hd _ hg u u hu
    obtain ⟨_, c1, _, hc1, ha1⟩ := hg.2.2.1 _ _ h1
    obtain ⟨_, c2, _, hc2, ha2⟩ := hg.2.2.1 _ _ h2
    rw [ha1] at ha2
    simp only [List.cons.injEq, and_true] at ha2
    subst ha2
    have hab : a = b := hd a ha b hb (hc1.symm.trans hc2)
    subst hab
    exact hacyc a h3
  obtain ⟨hlt, hdesc⟩ := buildComponents_spec (astsGraph facts) hE hac
  obtain ⟨l, r, ty, hty, hl, hr, hedge⟩ := hdone _ hf
  simp only [relation_to_enum, Option.some.injEq] at hty
  subst hty
  have hrn : r < (astsGraph facts).vertexes.length := (hg.2.2.1 _ _ hr).1
  have hlr := hdesc r l hrn ⟨_, hedge, rfl⟩
  have hR : Descending (ComparisonGraph facts) := by
    intro j e he
    obtain ⟨_, v, hv, hvj, e0, he0, hee⟩ := (build_edges_mem (astsGraph facts) j e).1 he
    rw [hee, ← hvj]
    exact hdesc v e0.to_ hv ⟨e0, he0, rfl⟩
  have hlen : (ComparisonGraph facts).vertexes.length
      = (buildComponents (astsGraph facts) (buildOrder (astsGraph facts))).2 :=
    build_vertexes_length _
  have hRedge : (⟨EdgeType.LESS,
      componentAt (buildComponents (astsGraph facts) (buildOrder (astsGraph facts))).1 l⟩ : Edge)
      ∈ edgesOf (ComparisonGraph facts)
        (componentAt (buildComponents (astsGraph facts) (buildOrder (astsGraph facts))).1 r) :=
    (build_edges_mem (astsGraph facts) _ _).2 ⟨hlt r hrn, r, hrn, rfl, _, hedge, rfl⟩
  have hlx : (ComparisonGraph facts).ast_hash_to_component.lookup x.treeHash = some
      (componentAt (buildComponents (astsGraph facts) (buildOrder (astsGraph facts))).1 l) := by
    have := build_lookup (astsGraph facts) hg.2.1 x.treeHash
    rw [hl] at this
    exact this
  have hly : (ComparisonGraph facts).ast_hash_to_component.lookup y.treeHash = some
      (componentAt (buildComponents (astsGraph facts) (buildOrder (astsGraph facts))).1 r) := by
    have := build_lookup (astsGraph facts) hg.2.1 y.treeHash
    rw [hr] at this
    exact this
  have hrR : componentAt (buildComponents (astsGraph facts) (buildOrder (astsGraph facts))).1 r
      < (ComparisonGraph facts).vertexes.length := by rw [hlen]; exact hlt r hrn
  have f1 := findPath_ascending (ComparisonGraph facts) hR _ _ hlr hrR
  have f2 := findPath_less_edge (ComparisonGraph facts) hR _ _ hrR hRedge
  have hne1 : ¬ componentAt (buildComponents (astsGraph facts) (buildOrder (astsGraph facts))).1 l
      = componentAt (buildComponents (astsGraph facts) (buildOrder (astsGraph facts))).1 r := by
    omega
  have hne2 : ¬ componentAt (buildComponents (astsGraph facts) (buildOrder (astsGraph facts))).1 r
      = componentAt (buildComponents (astsGraph facts) (buildOrder (astsGraph facts))).1 l := by
    omega
  constructor
  · unfold compare
    simp only [hlx, hly, hne1, if_false, f1, f2, Bool.false_eq_true, if_true]
  · unfold compare
    simp only [hlx, hly, hne2, if_false, f2, if_true]

/-- Facts whose left operand has a smaller rank than the right one have no
directed cycle. -/
theorem acyclic_of_rank (facts : List Atom) (rank : Ast → Nat)
    (h : ∀ f ∈ facts, rank f.left < rank f.right) :
    ∀ e, ¬ Relation.TransGen (factEdge facts) e e := by
  have hlt : ∀ u v, Relation.TransGen (factEdge facts) u v → rank v < rank u := by
    intro u v huv
    induction huv with
    | single hab =>
      obtain ⟨f, hf, h1, h2⟩ := hab
      rw [← h1, ← h2]; exact h f hf
    | tail _ hbc ih =>
      obtain ⟨f, hf, h1, h2⟩ := hbc
      have := h f hf
      rw [h1, h2] at this
      omega
  intro e he
  exact lt_irrefl _ (hlt e e he)

/-- C9 at the facts `a < b`, `b <= c` and the stated fact `a < b`. -/
theorem compare_stated_less_witness :
    compare (ComparisonGraph [⟨.less, exprA, exprB⟩, ⟨.lessOrEquals, exprB, exprC⟩]) exprA exprB
      = CompareResult.LESS ∧
    compare (ComparisonGraph [⟨.less, exprA, exprB⟩, ⟨.lessOrEquals, exprB, exprC⟩]) exprB exprA
      = CompareResult.GREATER :=
  compare_stated_less [⟨.less, exprA, exprB⟩, ⟨.lessOrEquals, exprB, exprC⟩] exprA exprB
    (by decide)
    (by
      intro x hx y hy h
      simp only [operands, List.mem_cons, List.mem_nil_iff, or_false] at hx hy
      rcases hx with rfl | rfl | rfl | rfl <;> rcases hy with rfl | rfl | rfl | rfl <;>
        first | rfl | (exact absurd h (by decide)))
    (acyclic_of_rank _ (fun e => e.treeHash) (by decide))
    (by decide)

/-! ## Symmetry of unknown -/

/-- On any graph `compare(x, y)` is `UNKNOWN` exactly when `compare(y, x)` is. -/
theorem compare_unknown_swap (g : Graph) (x y : Ast) :
    compare g x y = CompareResult.UNKNOWN ↔ compare g y x = CompareResult.UNKNOWN := by
  unfold compare
  cases hx : g.ast_hash_to_component.lookup x.treeHash <;>
    cases hy : g.ast_hash_to_component.lookup y.treeHash <;> simp
  rename_i s f
  by_cases h : s = f
  · subst h; simp
  · have h2 : ¬ f = s := fun e => h e.symm
    simp only [h, h2, if_false]
    rcases findPath g s f with ⟨p1, p2⟩
    rcases findPath g f s with ⟨q1, q2⟩
    cases p1 <;> cases p2 <;> cases q1 <;> cases q2 <;> simp

/-- C11 (symmetry of unknown): for every fact list and all expressions `x` and
`y`, on the graph built from the list `compare(x, y)` is `UNKNOWN` if and only
if `compare(y, x)` is `UNKNOWN`. -/
theorem compare_unknown_symmetric (facts : List Atom) (x y : Ast) :
    compare (ComparisonGraph facts) x y = CompareResult.UNKNOWN ↔
      compare (ComparisonGraph facts) y x = CompareResult.UNKNOWN :=
  compare_unknown_swap (ComparisonGraph facts) x y

/-! ## More evaluations of the code -/

/-- C13 (normalizer mapping of inverted operators) fails on the code: for all
expressions `a` and `b`, `normalizeAtom` turns `a > b` into `b <= a` and
`a >= b` into `b < a`. -/
theorem normalizeAtom_swapped (a b : Ast) :
    normalizeAtom ⟨.greater, a, b⟩ = ⟨.lessOrEquals, b, a⟩ ∧
    normalizeAtom ⟨.greaterOrEquals, a, b⟩ = ⟨.less, b, a⟩ :=
  ⟨rfl, rfl⟩

/-- C14 (collapse merges only strongly connected vertices) fails on the code:
on the facts `a = b`, `c < a` the fact graph has the vertices 0, 1, 2 for `a`,
`b`, `c`, the vertex 2 has no outgoing edge, hence no path to the vertex 0, and
the second pass gives all three vertices the component id 0, so that
`compare(c, a)` is `EQUAL`. -/
theorem collapse_merges_unconnected :
    buildComponents (astsGraph [⟨.equals, exprA, exprB⟩, ⟨.less, exprC, exprA⟩])
      (buildOrder (astsGraph [⟨.equals, exprA, exprB⟩, ⟨.less, exprC, exprA⟩]))
      = ([some 0, some 0, some 0], 1) ∧
    ¬ Relation.TransGen (gEdge (astsGraph [⟨.equals, exprA, exprB⟩, ⟨.less, exprC, exprA⟩])) 2 0 ∧
    compare (ComparisonGraph [⟨.equals, exprA, exprB⟩, ⟨.less, exprC, exprA⟩]) exprC exprA
      = CompareResult.EQUAL := by
  refine ⟨by decide, ?_, by decide⟩
  intro h
  obtain ⟨b, ⟨e, he, _⟩, _⟩ := Relation.TransGen.head'_iff.1 h
  have h0 : edgesOf (astsGraph [⟨.equals, exprA, exprB⟩, ⟨.less, exprC, exprA⟩]) 2 = [] := by
    decide
  rw [h0] at he
  exact absurd he (List.not_mem_nil _)

/-- C16 (findPath equals bounded Bellman-Ford reachability) fails on the code:
the collapsed graph of the facts `a < b`, `b <= c` has the edges 2 -> 1 -> 0,
which descend (so there is no directed cycle) and stay below the number of
vertices; there is a path from 2 to 0, and `findPath(2, 0)` returns
`reachable = false`. -/
theorem findPath_misses_path :
    Descending (ComparisonGraph [⟨.less, exprA, exprB⟩, ⟨.lessOrEquals, exprB, exprC⟩]) ∧
    (ComparisonGraph [⟨.less, exprA, exprB⟩, ⟨.lessOrEquals, exprB, exprC⟩]).vertexes.length
      = 3 ∧
    Relation.TransGen
      (gEdge (ComparisonGraph [⟨.less, exprA, exprB⟩, ⟨.lessOrEquals, exprB, exprC⟩])) 2 0 ∧
    findPath (ComparisonGraph [⟨.less, exprA, exprB⟩, ⟨.lessOrEquals, exprB, exprC⟩]) 2 0
      = (false, false) := by
  have hR : ComparisonGraph [⟨.less, exprA, exprB⟩, ⟨.lessOrEquals, exprB, exprC⟩] =
      ⟨[(1, 0), (2, 1), (3, 2)], [⟨[exprA]⟩, ⟨[exprB]⟩, ⟨[exprC]⟩],
        [[], [⟨.LESS, 0⟩], [⟨.LESS_OR_EQUAL, 1⟩]]⟩ := by decide
  refine ⟨?_, by decide, ?_, by decide⟩
  · rw [hR]
    intro i e he
    rcases i with _ | _ | _ | i
    · simp [edgesOf] at he
    · simp [edgesOf] at he; subst he; decide
    · simp [edgesOf] at he; subst he; decide
    · simp [edgesOf] at he
  · rw [hR]
    exact Relation.TransGen.tail
      (Relation.TransGen.single ⟨⟨.LESS_OR_EQUAL, 1⟩, by decide, rfl⟩)
      ⟨⟨.LESS, 0⟩, by decide, rfl⟩

/-- C17 (no self-referencing collapsed edges) fails on the code: on the single
fact `a = b` both expressions are in the class 0 and the collapsed graph has an
edge of type `EQUAL` from the class 0 to the class 0. -/
theorem collapsed_self_edge :
    (ComparisonGraph [⟨.equals, exprA, exprB⟩]).ast_hash_to_component = [(1, 0), (2, 0)] ∧
    (⟨EdgeType.EQUAL, 0⟩ : Edge) ∈ edgesOf (ComparisonGraph [⟨.equals, exprA, exprB⟩]) 0 := by
  decide

/-- C18 (a skipped fact contributes nothing) fails on the code: after the fact
`a < b`, the fact `c < z` with `z` of the hash of `a` and another column name is
skipped (its right operand resolves to `bad_term`), yet the fact graph has a
new vertex for `c`, and `compare(c, c)` is `EQUAL` where it is `UNKNOWN`
without the skipped fact. -/
theorem skipped_fact_leaves_vertex :
    (get_index exprA2 (get_index exprC (astsGraph [⟨.less, exprA, exprB⟩])).2).1 = none ∧
    (astsGraph [⟨.less, exprA, exprB⟩, ⟨.less, exprC, exprA2⟩]).vertexes.length = 3 ∧
    (astsGraph [⟨.less, exprA, exprB⟩]).vertexes.length = 2 ∧
    compare (ComparisonGraph [⟨.less, exprA, exprB⟩, ⟨.less, exprC, exprA2⟩]) exprC exprC
      = CompareResult.EQUAL ∧
    compare (ComparisonGraph [⟨.less, exprA, exprB⟩]) exprC exprC = CompareResult.UNKNOWN := by
  decide

/-! ## The fact graph of any list of facts -/

theorem mem_of_lookup (m : List (Nat × Nat)) (k i : Nat) (h : m.lookup k = some i) :
    (k, i) ∈ m := by
  induction m with
  | nil => simp at h
  | cons p rest ih =>
    obtain ⟨pk, pv⟩ := p
    by_cases hk : k = pk
    · subst hk
      simp only [List.lookup, beq_self_eq_true, Option.some.injEq] at h
      subst h
      exact List.mem_cons_self _ _
    · have h1 : (k == pk) = false := by simpa using hk
      simp only [List.lookup, h1] at h
      exact List.mem_cons_of_mem _ (ih h)

theorem get_index_of_none (x : Ast) (g : Graph)
    (h : g.ast_hash_to_component.lookup x.treeHash = none) :
    get_index x g = (some g.vertexes.length,
      { ast_hash_to_component :=
          g.ast_hash_to_component ++ [(x.treeHash, g.vertexes.length)]
        vertexes := g.vertexes ++ [⟨[x]⟩]
        edges := g.edges ++ [[]] }) := by
  unfold get_index
  simp only [h]
  rw [mapAssign_of_not_mem _ _ _ (not_mem_keys_of_lookup_none _ _ h)]

theorem get_index_of_some (x : Ast) (g : Graph) (i : Nat)
    (h : g.ast_hash_to_component.lookup x.treeHash = some i) :
    (get_index x g).2 = g ∧ ((get_index x g).1 = some i ∨ (get_index x g).1 = none) := by
  unfold get_index
  simp only [h]
  split
  · exact ⟨rfl, Or.inr rfl⟩
  · exact ⟨rfl, Or.inl rfl⟩

theorem edgesOf_append_nil (es : List (List Edge)) (u : Nat) :
    (es ++ [[]]).getD u [] = es.getD u [] := by
  simp only [List.getD_eq_getElem?_getD]
  by_cases hu : u < es.length
  · rw [List.getElem?_append_left hu]
  · rw [List.getElem?_append_right (by omega)]
    have h2 : es[u]? = none := List.getElem?_eq_none (by omega)
    rw [h2]
    cases hd : u - es.length with
    | zero => simp
    | succ d => simp

theorem lookup_append_of_some (m : List (Nat × Nat)) (k i : Nat) (l : List (Nat × Nat))
    (h : m.lookup k = some i) : (m ++ l).lookup k = some i := by
  induction m with
  | nil => simp at h
  | cons p rest ih =>
    obtain ⟨pk, pv⟩ := p
    by_cases hk : k = pk
    · subst hk
      simp only [List.lookup, beq_self_eq_true, Option.some.injEq, List.cons_append] at h ⊢
      exact h
    · have h1 : (k == pk) = false := by simpa using hk
      simp only [List.lookup, h1, List.cons_append] at h ⊢
      exact ih h

theorem lookup_append_new (m : List (Nat × Nat)) (k v : Nat)
    (h : m.lookup k = none) : (m ++ [(k, v)]).lookup k = some v := by
  induction m with
  | nil => simp [List.lookup]
  | cons p rest ih =>
    obtain ⟨pk, pv⟩ := p
    by_cases hk : k = pk
    · subst hk; simp [List.lookup] at h
    · have h1 : (k == pk) = false := by simpa using hk
      simp only [List.lookup, h1, List.cons_append] at h ⊢
      exact ih h

/-- The lambda `get_index` keeps well-formedness, the index entries and the
edges; an index it returns is that of the expression in the new graph. -/
theorem get_index_wf (g : Graph) (hg : WfGraph g) (x : Ast) :
    WfGraph (get_index x g).2 ∧
    (∀ k i, g.ast_hash_to_component.lookup k = some i →
      (get_index x g).2.ast_hash_to_component.lookup k = some i) ∧
    (∀ u, edgesOf (get_index x g).2 u = edgesOf g u) ∧
    (∀ i, (get_index x g).1 = some i →
      (get_index x g).2.ast_hash_to_component.lookup x.treeHash = some i ∧
      i < (get_index x g).2.vertexes.length) ∧
    (get_index x g).2.edges.length = (get_index x g).2.vertexes.length := by
  obtain ⟨hlen, hnd, hidx, hent, hne, hed⟩ := hg
  cases hl : g.ast_hash_to_component.lookup x.treeHash with
  | some i =>
    obtain ⟨h2, h1⟩ := get_index_of_some x g i hl
    rw [h2]
    refine ⟨⟨hlen, hnd, hidx, hent, hne, hed⟩, fun _ _ h => h, fun _ => rfl, ?_, hlen.symm⟩
    intro j hj
    rcases h1 with h1 | h1
    · rw [h1] at hj
      simp only [Option.some.injEq] at hj
      subst hj
      exact ⟨hl, hidx _ (mem_of_lookup _ _ _ hl)⟩
    · rw [h1] at hj; simp at hj
  | none =>
    rw [get_index_of_none x g hl]
    have hedge : ∀ u, edgesOf
        { ast_hash_to_component := g.ast_hash_to_component ++ [(x.treeHash, g.vertexes.length)]
          vertexes := g.vertexes ++ [⟨[x]⟩]
          edges := g.edges ++ [[]] } u = edgesOf g u := by
      intro u
      exact edgesOf_append_nil g.edges u
    refine ⟨⟨?_, ?_, ?_, ?_, ?_, ?_⟩, ?_, hedge, ?_, ?_⟩
    · simp [hlen]
    · simp only [List.map_append, List.map_cons, List.map_nil]
      rw [List.nodup_append]
      refine ⟨hnd, by simp, ?_⟩
      intro a ha hb
      simp only [List.mem_singleton] at hb
      subst hb
      exact not_mem_keys_of_lookup_none _ _ hl ha
    · intro p hp
      simp only [List.mem_append, List.mem_singleton] at hp
      simp only [List.length_append, List.length_singleton]
      rcases hp with h | h
      · have := hidx p h; omega
      · subst h; simp
    · intro i hi
      simp only [List.length_append, List.length_singleton] at hi
      by_cases hin : i < g.vertexes.length
      · obtain ⟨k, hk⟩ := hent i hin
        exact ⟨k, List.mem_append_left _ hk⟩
      · have : i = g.vertexes.length := by omega
        subst this
        exact ⟨x.treeHash, by simp⟩
    · intro i hi
      simp only [List.length_append, List.length_singleton] at hi
      unfold astsOf
      simp only [List.getD_eq_getElem?_getD]
      by_cases hin : i < g.vertexes.length
      · rw [List.getElem?_append_left hin]
        have := hne i hin
        unfold astsOf at this
        simpa using this
      · have : i = g.vertexes.length := by omega
        subst this
        simp
    · intro u e he
      rw [hedge u] at he
      have := hed u e he
      simp only [List.length_append, List.length_singleton]
      omega
    · intro k i hki
      exact lookup_append_of_some _ _ _ _ hki
    · intro i hi
      simp only [Option.some.injEq] at hi
      subst hi
      exact ⟨lookup_append_new _ _ _ hl, by simp⟩
    · simp [hlen]

theorem relation_to_enum_normalize (f : Atom) :
    ∃ ty, relation_to_enum (normalizeAtom f).name = some ty := by
  obtain ⟨name, l, r⟩ := f
  cases name <;> simp [normalizeAtom, inverse_relations, relation_to_enum]

theorem edgesOf_pushAt (g : Graph) (i : Nat) (x : Edge) (u : Nat) :
    edgesOf { g with edges := pushAt g.edges i x } u
      = edgesOf g u ++ (if u = i ∧ i < g.edges.length then [x] else []) := by
  unfold edgesOf
  simp only [List.getD_eq_getElem?_getD]
  generalize g.edges = es
  induction es generalizing i u with
  | nil => simp [pushAt]
  | cons l rest ih =>
    cases i with
    | zero =>
      cases u with
      | zero => simp [pushAt]
      | succ u => simp [pushAt]
    | succ i =>
      cases u with
      | zero => simp [pushAt]
      | succ u =>
        simp only [pushAt, List.getElem?_cons_succ, List.length_cons]
        rw [ih i u]
        simp

/-- One iteration of the constructor loop, for an accepted fact: the graph
after both calls of `get_index` with the edges of the rule pushed. -/
theorem addAtom_accepted (g : Graph) (f : Atom) (l r : Nat) (ty : EdgeType)
    (hty : relation_to_enum (normalizeAtom f).name = some ty)
    (hl : (get_index (normalizeAtom f).left g).1 = some l)
    (hr : (get_index (normalizeAtom f).right (get_index (normalizeAtom f).left g).2).1 = some r) :
    addAtom g f =
      if (normalizeAtom f).name = FunctionName.equals then
        { (get_index (normalizeAtom f).right (get_index (normalizeAtom f).left g).2).2 with
          edges := pushAt (pushAt
            (get_index (normalizeAtom f).right (get_index (normalizeAtom f).left g).2).2.edges
            r ⟨ty, l⟩) l ⟨ty, r⟩ }
      else
        { (get_index (normalizeAtom f).right (get_index (normalizeAtom f).left g).2).2 with
          edges := pushAt
            (get_index (normalizeAtom f).right (get_index (normalizeAtom f).left g).2).2.edges
            r ⟨ty, l⟩ } := by
  unfold addAtom
  simp only [hty, hl, hr]

/-- One iteration of the constructor loop, for a skipped fact: the graph after
both calls of `get_index`. -/
theorem addAtom_skipped (g : Graph) (f : Atom)
    (h : (get_index (normalizeAtom f).left g).1 = none ∨
      (get_index (normalizeAtom f).right (get_index (normalizeAtom f).left g).2).1 = none) :
    addAtom g f = (get_index (normalizeAtom f).right (get_index (normalizeAtom f).left g).2).2 := by
  obtain ⟨ty, hty⟩ := relation_to_enum_normalize f
  unfold addAtom
  simp only [hty]
  rcases h with h | h
  · simp only [h]
  · cases h1 : (get_index (normalizeAtom f).left g).1 with
    | none => simp only [h]
    | some l => simp only [h]

/-- One iteration of the constructor loop keeps well-formedness and the index
entries. -/
theorem addAtom_wf (g : Graph) (hg : WfGraph g) (f : Atom) :
    WfGraph (addAtom g f) ∧
    (∀ k i, g.ast_hash_to_component.lookup k = some i →
      (addAtom g f).ast_hash_to_component.lookup k = some i) ∧
    (addAtom g f).ast_hash_to_component =
      (get_index (normalizeAtom f).right
        (get_index (normalizeAtom f).left g).2).2.ast_hash_to_component := by
  obtain ⟨w1, k1, e1, i1, n1⟩ := get_index_wf g hg (normalizeAtom f).left
  obtain ⟨w2, k2, e2, i2, n2⟩ :=
    get_index_wf (get_index (normalizeAtom f).left g).2 w1 (normalizeAtom f).right
  obtain ⟨ty, hty⟩ := relation_to_enum_normalize f
  have hk : ∀ k i, g.ast_hash_to_component.lookup k = some i →
      (get_index (normalizeAtom f).right
        (get_index (normalizeAtom f).left g).2).2.ast_hash_to_component.lookup k = some i :=
    fun k i h => k2 k i (k1 k i h)
  cases hl : (get_index (normalizeAtom f).left g).1 with
  | none =>
    rw [addAtom_skipped g f (Or.inl hl)]
    exact ⟨w2, hk, rfl⟩
  | some l =>
    cases hr : (get_index (normalizeAtom f).right (get_index (normalizeAtom f).left g).2).1 with
    | none =>
      rw [addAtom_skipped g f (Or.inr hr)]
      exact ⟨w2, hk, rfl⟩
    | some r =>
      rw [addAtom_accepted g f l r ty hty hl hr]
      have hrl := (i2 r hr).2
      have hll : l < (get_index (normalizeAtom f).right
          (get_index (normalizeAtom f).left g).2).2.vertexes.length := by
        have h1 := mem_of_lookup _ _ _ (k2 _ _ (i1 l hl).1)
        exact w2.2.2.1 _ h1
      generalize (get_index (normalizeAtom f).right (get_index (normalizeAtom f).left g).2).2
        = g2 at w2 hk hrl hll ⊢
      obtain ⟨hlen, hnd, hidx, hent, hne, hed⟩ := w2
      split
      · refine ⟨⟨?_, hnd, hidx, hent, hne, ?_⟩, hk, rfl⟩
        · simp only [pushAt_length]; exact hlen
        · intro u e he
          have h1 := edgesOf_pushAt { g2 with edges := pushAt g2.edges r ⟨ty, l⟩ } l ⟨ty, r⟩ u
          simp only at h1
          rw [h1, edgesOf_pushAt g2 r ⟨ty, l⟩ u] at he
          simp only [List.mem_append] at he
          rcases he with (he | he) | he
          · exact hed u e he
          · split at he
            · simp only [List.mem_singleton] at he; subst he; exact hll
            · simp at he
          · split at he
            · simp only [List.mem_singleton] at he; subst he; exact hrl
            · simp at he
      · refine ⟨⟨?_, hnd, hidx, hent, hne, ?_⟩, hk, rfl⟩
        · simp only [pushAt_length]; exact hlen
        · intro u e he
          rw [edgesOf_pushAt g2 r ⟨ty, l⟩ u] at he
          simp only [List.mem_append] at he
          rcases he with he | he
          · exact hed u e he
          · split at he
            · simp only [List.mem_singleton] at he; subst he; exact hll
            · simp at he

theorem wfGraph_empty : WfGraph ⟨[], [], []⟩ := by
  refine ⟨rfl, by simp, by simp, ?_, ?_, ?_⟩
  · intro i hi; simp at hi
  · intro i hi; simp at hi
  · intro u e he; simp [edgesOf] at he

/-- The constructor loop keeps well-formedness and the index entries. -/
theorem foldl_addAtom_wf (l : List Atom) (g : Graph) (hg : WfGraph g) :
    WfGraph (l.foldl addAtom g) ∧
    ∀ k i, g.ast_hash_to_component.lookup k = some i →
      (l.foldl addAtom g).ast_hash_to_component.lookup k = some i := by
  induction l generalizing g with
  | nil => exact ⟨hg, fun _ _ h => h⟩
  | cons f rest ih =>
    obtain ⟨w1, k1, _⟩ := addAtom_wf g hg f
    obtain ⟨w2, k2⟩ := ih (addAtom g f) w1
    exact ⟨w2, fun k i h => k2 k i (k1 k i h)⟩

/-- The fact graph of any list of facts is well-formed. -/
theorem astsGraph_wf (facts : List Atom) : WfGraph (astsGraph facts) :=
  (foldl_addAtom_wf facts _ wfGraph_empty).1

theorem astsGraph_append (pre l : List Atom) :
    astsGraph (pre ++ l) = l.foldl addAtom (astsGraph pre) := by
  simp [astsGraph, List.foldl_append]

/-- An expression whose hash is in the index compares `EQUAL` to itself. -/
theorem compare_self_of_lookup (g : Graph) (x : Ast) (c : Nat)
    (h : g.ast_hash_to_component.lookup x.treeHash = some c) :
    compare g x x = CompareResult.EQUAL := by
  unfold compare
  simp [h]

/-- C12 (reflexivity): for every fact list and every expression `x` that is an
operand of an accepted fact of the list (a fact for which both calls of
`get_index` returned an index, not `bad_term`, on the graph built from the
facts before it), `compare(x, x)` is `EQUAL` on the graph built from the list. -/
theorem compare_reflexive (pre post : List Atom) (f : Atom) (x : Ast)
    (hl : (get_index (normalizeAtom f).left (astsGraph pre)).1 ≠ none)
    (hr : (get_index (normalizeAtom f).right
      (get_index (normalizeAtom f).left (astsGraph pre)).2).1 ≠ none)
    (hx : x = f.left ∨ x = f.right) :
    compare (ComparisonGraph (pre ++ f :: post)) x x = CompareResult.EQUAL := by
  have hx2 : x = (normalizeAtom f).left ∨ x = (normalizeAtom f).right := by
    obtain ⟨name, a, b⟩ := f
    cases name <;> simp [normalizeAtom, inverse_relations] at hx ⊢ <;> tauto
  have hg := astsGraph_wf pre
  obtain ⟨w1, k1, e1, i1, n1⟩ := get_index_wf (astsGraph pre) hg (normalizeAtom f).left
  obtain ⟨w2, k2, e2, i2, n2⟩ :=
    get_index_wf (get_index (normalizeAtom f).left (astsGraph pre)).2 w1 (normalizeAtom f).right
  obtain ⟨l, hl2⟩ := Option.ne_none_iff_exists'.1 hl
  obtain ⟨r, hr2⟩ := Option.ne_none_iff_exists'.1 hr
  obtain ⟨wa, _, hmap⟩ := addAtom_wf (astsGraph pre) hg f
  have hin : ∃ i, (addAtom (astsGraph pre) f).ast_hash_to_component.lookup x.treeHash
      = some i := by
    rw [hmap]
    rcases hx2 with h | h
    · exact ⟨l, by rw [h]; exact k2 _ _ (i1 l hl2).1⟩
    · exact ⟨r, by rw [h]; exact (i2 r hr2).1⟩
  obtain ⟨i, hi⟩ := hin
  have hfin : (astsGraph (pre ++ f :: post)).ast_hash_to_component.lookup x.treeHash
      = some i := by
    rw [astsGraph_append]
    simp only [List.foldl_cons]
    exact (foldl_addAtom_wf post _ wa).2 _ _ hi
  have hR := build_lookup (astsGraph (pre ++ f :: post)) (astsGraph_wf _).2.1 x.treeHash
  rw [hfin] at hR
  exact compare_self_of_lookup _ x _ hR

/-- C12 at the fact `a < b` with nothing before or after it, and `x = a`. -/
theorem compare_reflexive_witness :
    compare (ComparisonGraph ([] ++ (⟨.less, exprA, exprB⟩ : Atom) :: [])) exprA exprA
      = CompareResult.EQUAL :=
  compare_reflexive [] [] ⟨.less, exprA, exprB⟩ exprA (by decide) (by decide) (Or.inl rfl)

/-- C19 (builder edge rule): for every accepted fact, with the left operand of
its normalized form at the vertex `l` and the right one at `r`, the constructor
leaves every edge list as it was and appends to it the edges of the rule: one
edge `r -> l` of type `LESS` for `less`, one edge `r -> l` of type
`LESS_OR_EQUAL` for `lessOrEquals`, the two edges `r -> l` and `l -> r` of type
`EQUAL` for `equals`. -/
theorem addAtom_edge_rule (pre : List Atom) (f : Atom) (l r : Nat)
    (hl : (get_index (normalizeAtom f).left (astsGraph pre)).1 = some l)
    (hr : (get_index (normalizeAtom f).right
      (get_index (normalizeAtom f).left (astsGraph pre)).2).1 = some r) (u : Nat) :
    edgesOf (astsGraph (pre ++ [f])) u
      = edgesOf (astsGraph pre) u ++ ruleEdges (normalizeAtom f).name l r u := by
  have hg := astsGraph_wf pre
  obtain ⟨w1, k1, e1, i1, n1⟩ := get_index_wf (astsGraph pre) hg (normalizeAtom f).left
  obtain ⟨w2, k2, e2, i2, n2⟩ :=
    get_index_wf (get_index (normalizeAtom f).left (astsGraph pre)).2 w1 (normalizeAtom f).right
  obtain ⟨ty, hty⟩ := relation_to_enum_normalize f
  have hrl := (i2 r hr).2
  have hll : l < (get_index (normalizeAtom f).right
      (get_index (normalizeAtom f).left (astsGraph pre)).2).2.vertexes.length :=
    w2.2.2.1 _ (mem_of_lookup _ _ _ (k2 _ _ (i1 l hl).1))
  have hbase : ∀ v, edgesOf (get_index (normalizeAtom f).right
      (get_index (normalizeAtom f).left (astsGraph pre)).2).2 v = edgesOf (astsGraph pre) v :=
    fun v => (e2 v).trans (e1 v)
  rw [astsGraph_append]
  simp only [List.foldl_cons, List.foldl_nil]
  rw [addAtom_accepted _ f l r ty hty hl hr]
  rw [← n2] at hrl hll
  generalize (get_index (normalizeAtom f).right
    (get_index (normalizeAtom f).left (astsGraph pre)).2).2 = g2 at hbase hrl hll ⊢
  cases hn : (normalizeAtom f).name with
  | equals =>
    rw [hn] at hty
    simp only [relation_to_enum, Option.some.injEq] at hty
    subst hty
    simp only [if_true, ruleEdges]
    have h1 := edgesOf_pushAt { g2 with edges := pushAt g2.edges r ⟨EdgeType.EQUAL, l⟩ } l
      ⟨EdgeType.EQUAL, r⟩ u
    simp only at h1
    rw [h1, edgesOf_pushAt g2 r ⟨EdgeType.EQUAL, l⟩ u, hbase u, pushAt_length]
    simp [hrl, hll, List.append_assoc]
  | less =>
    rw [hn] at hty
    simp only [relation_to_enum, Option.some.injEq] at hty
    subst hty
    simp only [ruleEdges, reduceCtorEq, if_false]
    rw [edgesOf_pushAt g2 r ⟨EdgeType.LESS, l⟩ u, hbase u]
    simp [hrl]
  | lessOrEquals =>
    rw [hn] at hty
    simp only [relation_to_enum, Option.some.injEq] at hty
    subst hty
    simp only [ruleEdges, reduceCtorEq, if_false]
    rw [edgesOf_pushAt g2 r ⟨EdgeType.LESS_OR_EQUAL, l⟩ u, hbase u]
    simp [hrl]
  | greater => rw [hn] at hty; simp [relation_to_enum] at hty
  | greaterOrEquals => rw [hn] at hty; simp [relation_to_enum] at hty

/-- C19 at the fact `a = b` after the fact `a < b`, at the vertex 0 of `a`. -/
theorem addAtom_edge_rule_witness :
    edgesOf (astsGraph ([(⟨.less, exprA, exprB⟩ : Atom)] ++ [⟨.equals, exprA, exprB⟩])) 0
      = edgesOf (astsGraph [⟨.less, exprA, exprB⟩]) 0
        ++ ruleEdges (normalizeAtom ⟨.equals, exprA, exprB⟩).name 0 1 0 :=
  addAtom_edge_rule [⟨.less, exprA, exprB⟩] ⟨.equals, exprA, exprB⟩ 0 1 (by decide) (by decide) 0

/-! ## The first pass on any graph -/

/-- The loop of `dfsOrder` over edges, given the contract of the recursive
calls, on any graph. -/
theorem dfsOrder_loop_any (g : Graph) (n fuel : Nat)
    (ih : ∀ v st, st.1.length = n → st.1[v]? = some false → st.1.count false ≤ fuel →
      (dfsOrder g fuel v st).1.length = n ∧ DfsExt st (dfsOrder g fuel v st) ∧
        Vis (dfsOrder g fuel v st).1 v) :
    ∀ (es : List Edge) (st : List Bool × List Nat), (∀ e ∈ es, e.to_ < n) →
      st.1.length = n → st.1.count false ≤ fuel →
      (es.foldl
        (fun s edge => if !(s.1.getD edge.to_ true) then dfsOrder g fuel edge.to_ s else s)
        st).1.length = n ∧
      DfsExt st (es.foldl
        (fun s edge => if !(s.1.getD edge.to_ true) then dfsOrder g fuel edge.to_ s else s)
        st) := by
  intro es
  induction es with
  | nil => intro st _ hlen _; exact ⟨hlen, dfsExt_refl st⟩
  | cons e es ihes =>
    intro st hes hlen hcount
    have hw : e.to_ < st.1.length := by rw [hlen]; exact hes e (List.mem_cons_self _ _)
    have hes2 : ∀ e1 ∈ es, e1.to_ < n := fun e1 h1 => hes e1 (List.mem_cons_of_mem _ h1)
    simp only [List.foldl_cons]
    cases hb : st.1[e.to_] with
    | false =>
      have hb2 : st.1[e.to_]? = some false := by rw [List.getElem?_eq_getElem hw, hb]
      have hcond : (!(st.1.getD e.to_ true)) = true := by
        simp [List.getD_eq_getElem?_getD, hb2]
      simp only [hcond, if_true]
      obtain ⟨l1, x1, _⟩ := ih e.to_ st hlen hb2 hcount
      obtain ⟨l2, x2⟩ := ihes (dfsOrder g fuel e.to_ st) hes2 l1 (le_trans x1.2.2 hcount)
      exact ⟨l2, dfsExt_trans x1 x2⟩
    | true =>
      have hb2 : st.1[e.to_]? = some true := by rw [List.getElem?_eq_getElem hw, hb]
      have hcond : (!(st.1.getD e.to_ true)) = false := by
        simp [List.getD_eq_getElem?_getD, hb2]
      simp only [hcond, Bool.false_eq_true, if_false]
      exact ihes st hes2 hlen hcount

/-- The contract of `dfsOrder` on any graph: called with enough fuel on an
unmarked vertex, it marks that vertex and adds exactly the newly marked
vertices to `order`. -/
theorem dfsOrder_any (g : Graph) (n : Nat) (hE : ∀ u w, gEdge g u w → w < n) :
    ∀ fuel v st, st.1.length = n → st.1[v]? = some false → st.1.count false ≤ fuel →
      (dfsOrder g fuel v st).1.length = n ∧ DfsExt st (dfsOrder g fuel v st) ∧
        Vis (dfsOrder g fuel v st).1 v := by
  intro fuel
  induction fuel with
  | zero =>
    intro v st _ hv hc
    have := count_false_pos st.1 v hv
    omega
  | succ fuel ih =>
    intro v st hlen hv hcount
    have hvn : v < st.1.length := by
      by_contra hc
      have : st.1[v]? = none := List.getElem?_eq_none (by omega)
      rw [this] at hv; simp at hv
    have hnv : ¬ Vis st.1 v := by unfold Vis; rw [hv]; simp
    have hv0 : Vis (st.1.set v true, st.2).1 v := (vis_set st.1 v v).2 (Or.inl ⟨rfl, hvn⟩)
    have hcount0 : (st.1.set v true, st.2).1.count false ≤ fuel := by
      have := count_false_set st.1 v hv
      simp only
      omega
    obtain ⟨l1, x1⟩ := dfsOrder_loop_any g n fuel ih (edgesOf g v) (st.1.set v true, st.2)
      (fun e he => hE v _ ⟨e, he, rfl⟩) (by simpa using hlen) hcount0
    simp only [dfsOrder]
    refine ⟨l1, ⟨?_, ?_, ?_⟩, x1.1 v hv0⟩
    · intro u hu
      exact x1.1 u ((vis_set st.1 v u).2 (Or.inr hu))
    · intro u
      simp only [List.mem_append, List.mem_singleton]
      rw [x1.2.1 u]
      constructor
      · rintro ((h | h) | h)
        · exact Or.inl h
        · exact Or.inr ⟨h.1, fun hu => h.2 ((vis_set st.1 v u).2 (Or.inr hu))⟩
        · subst h
          exact Or.inr ⟨x1.1 u hv0, hnv⟩
      · rintro (h | h)
        · exact Or.inl (Or.inl h)
        · by_cases huv : u = v
          · exact Or.inr huv
          · refine Or.inl (Or.inr ⟨h.1, ?_⟩)
            intro hu
            rcases (vis_set st.1 v u).1 hu with h2 | h2
            · exact huv h2.1
            · exact h.2 h2
    · have := count_false_set st.1 v hv
      have h2 := x1.2.2
      simp only at h2 ⊢
      omega

/-- The loop of the first pass over the vertices below `k`, on any graph. -/
theorem buildOrder_loop_any (g : Graph) (n : Nat) (hE : ∀ u w, gEdge g u w → w < n) :
    ∀ k, k ≤ n →
      ((List.range k).foldl
        (fun st v => if !(st.1.getD v true) then dfsOrder g n v st else st)
        (List.replicate n false, [])).1.length = n ∧
      (∀ u, Vis ((List.range k).foldl
        (fun st v => if !(st.1.getD v true) then dfsOrder g n v st else st)
        (List.replicate n false, [])).1 u ↔
        u ∈ ((List.range k).foldl
        (fun st v => if !(st.1.getD v true) then dfsOrder g n v st else st)
        (List.replicate n false, [])).2) ∧
      (∀ u, u < k → Vis ((List.range k).foldl
        (fun st v => if !(st.1.getD v true) then dfsOrder g n v st else st)
        (List.replicate n false, [])).1 u) := by
  intro k
  induction k with
  | zero =>
    intro _
    refine ⟨by simp, ?_, ?_⟩
    · intro u
      simp only [List.range_zero, List.foldl_nil, List.not_mem_nil, iff_false]
      unfold Vis
      rw [List.getElem?_replicate]
      split <;> simp
    · intro u hu; omega
  | succ k ih =>
    intro hk
    obtain ⟨hlen, hgray, hvis⟩ := ih (by omega)
    rw [List.range_succ, List.foldl_append]
    simp only [List.foldl_cons, List.foldl_nil]
    generalize (List.range k).foldl
        (fun st v => if !(st.1.getD v true) then dfsOrder g n v st else st)
        (List.replicate n false, []) = st at hlen hgray hvis ⊢
    have hkl : k < st.1.length := by rw [hlen]; omega
    cases hb : st.1[k] with
    | false =>
      have hb2 : st.1[k]? = some false := by rw [List.getElem?_eq_getElem hkl, hb]
      have hcond : (!(st.1.getD k true)) = true := by
        simp [List.getD_eq_getElem?_getD, hb2]
      simp only [hcond, if_true]
      obtain ⟨l1, x1, v1⟩ := dfsOrder_any g n hE n k st hlen hb2
        (by rw [← hlen]; exact List.count_le_length _ _)
      refine ⟨l1, ?_, ?_⟩
      · intro u
        rw [x1.2.1 u]
        constructor
        · intro hu
          by_cases h0 : Vis st.1 u
          · exact Or.inl ((hgray u).1 h0)
          · exact Or.inr ⟨hu, h0⟩
        · rintro (h | h)
          · exact x1.1 u ((hgray u).2 h)
          · exact h.1
      · intro u hu
        by_cases huk : u = k
        · subst huk; exact v1
        · exact x1.1 u (hvis u (by omega))
    | true =>
      have hb2 : st.1[k]? = some true := by rw [List.getElem?_eq_getElem hkl, hb]
      have hcond : (!(st.1.getD k true)) = false := by
        simp [List.getD_eq_getElem?_getD, hb2]
      simp only [hcond, Bool.false_eq_true, if_false]
      refine ⟨hlen, hgray, ?_⟩
      intro u hu
      by_cases huk : u = k
      · subst huk; exact hb2
      · exact hvis u (by omega)

/-- On any graph whose edges go to vertices, the first pass lists exactly the
vertices. -/
theorem buildOrder_mem (g : Graph) (hE : ∀ u w, gEdge g u w → w < g.vertexes.length) (u : Nat) :
    u ∈ buildOrder g ↔ u < g.vertexes.length := by
  obtain ⟨hlen, hgray, hvis⟩ := buildOrder_loop_any g g.vertexes.length hE g.vertexes.length
    (le_refl _)
  constructor
  · intro hu
    have := vis_lt ((hgray u).2 hu)
    rw [hlen] at this
    exact this
  · intro hu
    exact (hgray u).1 (hvis u hu)

/-! ## The second pass on any graph -/

theorem count_none_set (cs : List (Option Nat)) (v c : Nat) (h : cs[v]? = some none) :
    (cs.set v (some c)).count none + 1 = cs.count none := by
  induction cs generalizing v with
  | nil => simp at h
  | cons b cs ih =>
    cases v with
    | zero =>
      simp only [List.getElem?_cons_zero, Option.some.injEq] at h
      subst h
      simp [List.count_cons]
    | succ v =>
      simp only [List.getElem?_cons_succ] at h
      simp only [List.set_cons_succ, List.count_cons]
      have := ih v h
      omega

theorem count_none_pos (cs : List (Option Nat)) (v : Nat) (h : cs[v]? = some none) :
    0 < cs.count none :=
  List.count_pos_iff.2 (List.getElem?_mem h)

theorem compExt_refl (g : Graph) (c : Nat) (cs : List (Option Nat)) : CompExt g c cs cs :=
  ⟨rfl, fun _ _ h => h, fun _ h => Or.inl h,
    fun _ h1 h2 => by rw [h1] at h2; simp at h2, le_refl _⟩

theorem compExt_trans {g : Graph} {c : Nat} {a b d : List (Option Nat)}
    (h1 : CompExt g c a b) (h2 : CompExt g c b d) : CompExt g c a d := by
  obtain ⟨l1, p1, n1, c1, k1⟩ := h1
  obtain ⟨l2, p2, n2, c2, k2⟩ := h2
  refine ⟨l2.trans l1, fun u i h => p2 u i (p1 u i h), ?_, ?_, le_trans k2 k1⟩
  · intro u hu
    rcases n1 u hu with h | h
    · exact n2 u h
    · exact Or.inr (p2 u c h)
  · intro u hu hd w hw
    rcases n1 u hu with h | h
    · exact c2 u h hd w hw
    · obtain ⟨i, hi⟩ := c1 u hu h w hw
      exact ⟨i, p2 w i hi⟩

/-- The loop of `dfsComponents` over edges, given the contract of the recursive
calls. -/
theorem dfsComponents_loop_any (g : Graph) (n fuel c : Nat)
    (ih : ∀ v cs, cs.length = n → cs[v]? = some none → cs.count none ≤ fuel →
      CompExt g c cs (dfsComponents g fuel v cs c) ∧
        (dfsComponents g fuel v cs c)[v]? = some (some c)) :
    ∀ (es : List Edge) (cs : List (Option Nat)), (∀ e ∈ es, e.to_ < n) →
      cs.length = n → cs.count none ≤ fuel →
      CompExt g c cs (es.foldl
        (fun cs edge =>
          if cs.getD edge.to_ (some 0) = none then dfsComponents g fuel edge.to_ cs c else cs)
        cs) ∧
      ∀ e ∈ es, Assigned (es.foldl
        (fun cs edge =>
          if cs.getD edge.to_ (some 0) = none then dfsComponents g fuel edge.to_ cs c else cs)
        cs) e.to_ := by
  intro es
  induction es with
  | nil =>
    intro cs _ _ _
    exact ⟨compExt_refl g c cs, fun e he => absurd he (List.not_mem_nil _)⟩
  | cons e es ihes =>
    intro cs hes hlen hcount
    have hw : e.to_ < cs.length := by rw [hlen]; exact hes e (List.mem_cons_self _ _)
    have hes2 : ∀ e1 ∈ es, e1.to_ < n := fun e1 h1 => hes e1 (List.mem_cons_of_mem _ h1)
    simp only [List.foldl_cons]
    cases hb : cs[e.to_] with
    | none =>
      have hb2 : cs[e.to_]? = some none := by rw [List.getElem?_eq_getElem hw, hb]
      have hcond : cs.getD e.to_ (some 0) = none := by
        simp [List.getD_eq_getElem?_getD, hb2]
      simp only [hcond, if_true]
      obtain ⟨x1, v1⟩ := ih e.to_ cs hlen hb2 hcount
      obtain ⟨x2, t2⟩ := ihes (dfsComponents g fuel e.to_ cs c) hes2 (x1.1.trans hlen)
        (le_trans x1.2.2.2.2 hcount)
      refine ⟨compExt_trans x1 x2, ?_⟩
      intro e1 he1
      rcases List.mem_cons.1 he1 with h | h
      · subst h; exact ⟨c, x2.2.1 _ _ v1⟩
      · exact t2 e1 h
    | some i =>
      have hb2 : cs[e.to_]? = some (some i) := by rw [List.getElem?_eq_getElem hw, hb]
      have hcond : ¬ (cs.getD e.to_ (some 0) = none) := by
        simp [List.getD_eq_getElem?_getD, hb2]
      simp only [hcond, if_false]
      obtain ⟨x2, t2⟩ := ihes cs hes2 hlen hcount
      refine ⟨x2, ?_⟩
      intro e1 he1
      rcases List.mem_cons.1 he1 with h | h
      · subst h; exact ⟨i, x2.2.1 _ _ hb2⟩
      · exact t2 e1 h

/-- The contract of `dfsComponents` on any graph: called with enough fuel on a
vertex without id, it gives that vertex the id `c` and extends the vector. -/
theorem dfsComponents_any (g : Graph) (n c : Nat) (hE : ∀ u w, gEdge g u w → w < n) :
    ∀ fuel v cs, cs.length = n → cs[v]? = some none → cs.count none ≤ fuel →
      CompExt g c cs (dfsComponents g fuel v cs c) ∧
        (dfsComponents g fuel v cs c)[v]? = some (some c) := by
  intro fuel
  induction fuel with
  | zero =>
    intro v cs _ hv hc
    have := count_none_pos cs v hv
    omega
  | succ fuel ih =>
    intro v cs hlen hv hcount
    have hvn : v < cs.length := by
      by_contra hc
      have : cs[v]? = none := List.getElem?_eq_none (by omega)
      rw [this] at hv; simp at hv
    have hset : (cs.set v (some c))[v]? = some (some c) := by
      rw [List.getElem?_set, if_pos rfl, if_pos hvn]
    have hcount0 : (cs.set v (some c)).count none ≤ fuel := by
      have := count_none_set cs v c hv
      omega
    obtain ⟨x1, t1⟩ := dfsComponents_loop_any g n fuel c ih (edgesOf g v) (cs.set v (some c))
      (fun e he => hE v _ ⟨e, he, rfl⟩) (by simpa using hlen) hcount0
    rw [dfsComponents]
    obtain ⟨l1, p1, n1, c1, k1⟩ := x1
    have hv1 := p1 v c hset
    refine ⟨⟨by simpa using l1, ?_, ?_, ?_, ?_⟩, hv1⟩
    · intro u i hu
      have huv : v ≠ u := by
        intro e; rw [e, hu] at hv; simp at hv
      exact p1 u i (by rw [List.getElem?_set_ne huv]; exact hu)
    · intro u hu
      by_cases huv : v = u
      · subst huv; exact Or.inr hv1
      · exact n1 u (by rw [List.getElem?_set_ne huv]; exact hu)
    · intro u hu hd w hw
      by_cases huv : v = u
      · subst huv
        obtain ⟨e, he, hew⟩ := hw
        rw [← hew]
        exact t1 e he
      · exact c1 u (by rw [List.getElem?_set_ne huv]; exact hu) hd w hw
    · have := count_none_set cs v c hv
      omega

theorem assigned_reach (g : Graph) (cs : List (Option Nat))
    (hcl : ∀ u, Assigned cs u → ∀ w, gEdge g u w → Assigned cs w) (u w : Nat)
    (h : Relation.ReflTransGen (gEdge g) u w) (hu : Assigned cs u) : Assigned cs w := by
  induction h with
  | refl => exact hu
  | tail _ hbc ih => exact hcl _ ih _ hbc

/-- One root of the second pass keeps the invariant. -/
theorem sccInv_step (g : Graph) (n : Nat) (cs : List (Option Nat)) (c : Nat)
    (cs2 : List (Option Nat)) (hlen : cs.length = n) (hinv : SccInv g (cs, c))
    (hext : CompExt g c cs cs2) (v : Nat) (hv : cs2[v]? = some (some c)) :
    SccInv g (cs2, c + 1) := by
  obtain ⟨hlt, hcl, hdesc, hscc, hused⟩ := hinv
  obtain ⟨l1, p1, n1, c1, k1⟩ := hext
  have hcase : ∀ (u i : Nat), cs2[u]? = some (some i) →
      cs[u]? = some (some i) ∨ (cs[u]? = some none ∧ i = c) := by
    intro u i hu
    have hul : u < cs.length := by
      by_contra hc
      have : cs2[u]? = none := List.getElem?_eq_none (by omega)
      rw [this] at hu; simp at hu
    cases hx : cs[u] with
    | none =>
      have hx2 : cs[u]? = some none := by rw [List.getElem?_eq_getElem hul, hx]
      rcases n1 u hx2 with h | h
      · rw [h] at hu; simp at hu
      · rw [h] at hu
        simp only [Option.some.injEq] at hu
        exact Or.inr ⟨hx2, hu.symm⟩
    | some j =>
      have hx2 : cs[u]? = some (some j) := by rw [List.getElem?_eq_getElem hul, hx]
      have := p1 u j hx2
      rw [this] at hu
      simp only [Option.some.injEq] at hu
      subst hu
      exact Or.inl hx2
  have hcl2 : ∀ u, Assigned cs2 u → ∀ w, gEdge g u w → Assigned cs2 w := by
    intro u ⟨i, hi⟩ w hw
    rcases hcase u i hi with h | ⟨h, hic⟩
    · obtain ⟨j, hj⟩ := hcl u ⟨i, h⟩ w hw
      exact ⟨j, p1 w j hj⟩
    · subst hic
      exact c1 u h hi w hw
  refine ⟨?_, hcl2, ?_, ?_, ?_⟩
  · intro u i hu
    simp only at hu ⊢
    rcases hcase u i hu with h | ⟨_, hic⟩
    · have := hlt u i h; simp only at this; omega
    · omega
  · intro u w i j hu hw hj
    simp only at hu hj
    rcases hcase u i hu with h | ⟨_, hic⟩
    · obtain ⟨j2, hj2⟩ := hcl u ⟨i, h⟩ w hw
      have := p1 w j2 hj2
      rw [this] at hj
      simp only [Option.some.injEq] at hj
      subst hj
      exact hdesc u w i j2 h hw hj2
    · rcases hcase w j hj with h2 | ⟨_, hjc⟩
      · have := hlt w j h2; simp only at this; omega
      · omega
  · intro u w huw hwu
    simp only
    have hold := hscc u w huw hwu
    simp only at hold
    by_cases hul : u < cs.length
    · cases hx : cs[u] with
      | some i =>
        have hx2 : cs[u]? = some (some i) := by rw [List.getElem?_eq_getElem hul, hx]
        rw [p1 u i hx2, p1 w i (by rw [← hold]; exact hx2)]
      | none =>
        have hx2 : cs[u]? = some none := by rw [List.getElem?_eq_getElem hul, hx]
        have hw2 : cs[w]? = some none := by rw [← hold]; exact hx2
        rcases n1 u hx2 with hu | hu
        · rcases n1 w hw2 with h | h
          · rw [hu, h]
          · obtain ⟨i, hi⟩ := assigned_reach g cs2 hcl2 w u hwu ⟨c, h⟩
            rw [hu] at hi; simp at hi
        · rcases n1 w hw2 with h | h
          · obtain ⟨i, hi⟩ := assigned_reach g cs2 hcl2 u w huw ⟨c, hu⟩
            rw [h] at hi; simp at hi
          · rw [hu, h]
    · have h1 : cs[u]? = none := List.getElem?_eq_none (by omega)
      have h2 : cs[w]? = none := by rw [← hold]; exact h1
      have h3 : cs2[u]? = none := List.getElem?_eq_none (by omega)
      have h4 : cs2[w]? = none := by
        apply List.getElem?_eq_none
        rw [l1]
        exact List.getElem?_eq_none_iff.1 h2
      rw [h3, h4]
  · intro d hd
    simp only at hd ⊢
    by_cases hdc : d = c
    · subst hdc; exact ⟨v, hv⟩
    · obtain ⟨r, hr⟩ := hused d (by omega)
      exact ⟨r, p1 r d hr⟩

/-- The loop of the second pass over any list of vertices. -/
theorem buildComponents_loop_any (g : Graph) (n : Nat) (hE : ∀ u w, gEdge g u w → w < n) :
    ∀ (s : List Nat) (cs : List (Option Nat) × Nat), (∀ u ∈ s, u < n) →
      cs.1.length = n → SccInv g cs →
      (s.foldl
        (fun cs v =>
          if cs.1.getD v (some 0) = none then
            (dfsComponents (reverseGraph g) n v cs.1 cs.2, cs.2 + 1)
          else cs)
        cs).1.length = n ∧
      SccInv g (s.foldl
        (fun cs v =>
          if cs.1.getD v (some 0) = none then
            (dfsComponents (reverseGraph g) n v cs.1 cs.2, cs.2 + 1)
          else cs)
        cs) ∧
      (∀ u, Assigned cs.1 u ∨ u ∈ s → Assigned (s.foldl
        (fun cs v =>
          if cs.1.getD v (some 0) = none then
            (dfsComponents (reverseGraph g) n v cs.1 cs.2, cs.2 + 1)
          else cs)
        cs).1 u) := by
  intro s
  induction s with
  | nil =>
    intro cs _ hlen hinv
    refine ⟨hlen, hinv, ?_⟩
    intro u hu
    rcases hu with h | h
    · exact h
    · exact absurd h (List.not_mem_nil _)
  | cons v s ih =>
    intro cs hlt hlen hinv
    have hv : v < cs.1.length := by rw [hlen]; exact hlt v (List.mem_cons_self _ _)
    have hlt2 : ∀ u ∈ s, u < n := fun u hu => hlt u (List.mem_cons_of_mem _ hu)
    simp only [List.foldl_cons]
    cases hb : cs.1[v] with
    | none =>
      have hb2 : cs.1[v]? = some none := by rw [List.getElem?_eq_getElem hv, hb]
      have hcond : cs.1.getD v (some 0) = none := by
        simp [List.getD_eq_getElem?_getD, hb2]
      simp only [hcond, if_true]
      have hrev : reverseGraph g = g := rfl
      rw [hrev]
      obtain ⟨x1, v1⟩ := dfsComponents_any g n cs.2 hE n v cs.1 hlen hb2
        (by rw [← hlen]; exact List.count_le_length _ _)
      have hinv2 := sccInv_step g n cs.1 cs.2 _ hlen hinv x1 v v1
      obtain ⟨l3, i3, a3⟩ := ih (dfsComponents g n v cs.1 cs.2, cs.2 + 1) hlt2
        (x1.1.trans hlen) hinv2
      refine ⟨l3, i3, ?_⟩
      intro u hu
      apply a3 u
      rcases hu with ⟨i, hi⟩ | hu
      · exact Or.inl ⟨i, x1.2.1 u i hi⟩
      · rcases List.mem_cons.1 hu with h | h
        · subst h; exact Or.inl ⟨cs.2, v1⟩
        · exact Or.inr h
    | some i =>
      have hb2 : cs.1[v]? = some (some i) := by rw [List.getElem?_eq_getElem hv, hb]
      have hcond : ¬ (cs.1.getD v (some 0) = none) := by
        simp [List.getD_eq_getElem?_getD, hb2]
      simp only [hcond, if_false]
      obtain ⟨l3, i3, a3⟩ := ih cs hlt2 hlen hinv
      refine ⟨l3, i3, ?_⟩
      intro u hu
      apply a3 u
      rcases hu with hu | hu
      · exact Or.inl hu
      · rcases List.mem_cons.1 hu with h | h
        · subst h; exact Or.inl ⟨i, hb2⟩
        · exact Or.inr h

/-- On any graph whose edges go to vertices, the second pass numbers every
vertex and ends in a state with the invariant. -/
theorem buildComponents_any (g : Graph) (hE : ∀ u w, gEdge g u w → w < g.vertexes.length) :
    SccInv g (buildComponents g (buildOrder g)) ∧
    (∀ u, u < g.vertexes.length → Assigned (buildComponents g (buildOrder g)).1 u) ∧
    (buildComponents g (buildOrder g)).1.length = g.vertexes.length := by
  have h0 : SccInv g (List.replicate g.vertexes.length none, 0) := by
    refine ⟨?_, ?_, ?_, ?_, ?_⟩
    · intro u i hu
      simp only [List.getElem?_replicate] at hu
      split at hu <;> simp at hu
    · intro u ⟨i, hu⟩
      simp only [List.getElem?_replicate] at hu
      split at hu <;> simp at hu
    · intro u w i j hu
      simp only [List.getElem?_replicate] at hu
      split at hu <;> simp at hu
    · intro u w huw hwu
      simp only [List.getElem?_replicate]
      have key : ∀ a b, Relation.ReflTransGen (gEdge g) a b → a < g.vertexes.length →
          b < g.vertexes.length := by
        intro a b hab ha
        induction hab with
        | refl => exact ha
        | tail _ hbc _ => exact hE _ _ hbc
      by_cases h1 : u < g.vertexes.length
      · simp [h1, key u w huw h1]
      · have h2 : ¬ w < g.vertexes.length := fun h => h1 (key w u hwu h)
        simp [h1, h2]
    · intro c hc; simp at hc
  obtain ⟨hl, hinv, hass⟩ := buildComponents_loop_any g g.vertexes.length hE (buildOrder g)
    (List.replicate g.vertexes.length none, 0)
    (fun u hu => (buildOrder_mem g hE u).1 hu) (by simp) h0
  exact ⟨hinv, fun u hu => hass u (Or.inr ((buildOrder_mem g hE u).2 hu)), hl⟩

/-! ## The collapse of any fact graph -/

theorem astsGraph_edge_lt (facts : List Atom) (u w : Nat)
    (h : gEdge (astsGraph facts) u w) : w < (astsGraph facts).vertexes.length := by
  obtain ⟨e, he, hew⟩ := h
  rw [← hew]
  exact (astsGraph_wf facts).2.2.2.2.2 u e he

theorem edgesOf_lt (g : Graph) (v : Nat) (e : Edge) (h : e ∈ edgesOf g v) :
    v < g.edges.length := by
  by_contra hc
  unfold edgesOf at h
  rw [List.getD_eq_getElem?_getD, List.getElem?_eq_none (by omega)] at h
  simp at h

/-- C15 (collapse merges every strongly connected set): for every fact list,
any two vertices of the fact graph that are mutually reachable along directed
edges get the same component id in the second pass of
`BuildGraphFromAstsGraph`. -/
theorem collapse_merges_scc (facts : List Atom) (u v : Nat)
    (hu : u < (astsGraph facts).vertexes.length)
    (huv : Relation.ReflTransGen (gEdge (astsGraph facts)) u v)
    (hvu : Relation.ReflTransGen (gEdge (astsGraph facts)) v u) :
    ∃ c, (buildComponents (astsGraph facts) (buildOrder (astsGraph facts))).1[u]? = some (some c) ∧
      (buildComponents (astsGraph facts) (buildOrder (astsGraph facts))).1[v]? = some (some c) := by
  obtain ⟨hinv, hass, hcl⟩ := buildComponents_any (astsGraph facts) (astsGraph_edge_lt facts)
  obtain ⟨c, hc⟩ := hass u hu
  refine ⟨c, hc, ?_⟩
  rw [← hinv.2.2.2.1 u v huv hvu]
  exact hc

/-- C15 at the fact `a = b`: the vertices 0 and 1 reach each other. -/
theorem collapse_merges_scc_witness :
    ∃ c, (buildComponents (astsGraph [⟨.equals, exprA, exprB⟩])
        (buildOrder (astsGraph [⟨.equals, exprA, exprB⟩]))).1[0]? = some (some c) ∧
      (buildComponents (astsGraph [⟨.equals, exprA, exprB⟩])
        (buildOrder (astsGraph [⟨.equals, exprA, exprB⟩]))).1[1]? = some (some c) :=
  collapse_merges_scc [⟨.equals, exprA, exprB⟩] 0 1 (by decide)
    (Relation.ReflTransGen.single ⟨⟨.EQUAL, 1⟩, by decide, rfl⟩)
    (Relation.ReflTransGen.single ⟨⟨.EQUAL, 0⟩, by decide, rfl⟩)

theorem componentAt_lt (facts : List Atom) (v : Nat)
    (hv : v < (astsGraph facts).vertexes.length) :
    componentAt (buildComponents (astsGraph facts) (buildOrder (astsGraph facts))).1 v
      < (buildComponents (astsGraph facts) (buildOrder (astsGraph facts))).2 := by
  obtain ⟨hinv, hass, hcl⟩ := buildComponents_any (astsGraph facts) (astsGraph_edge_lt facts)
  obtain ⟨c, hc⟩ := hass v hv
  rw [componentAt_of_some hc]
  exact hinv.1 v c hc

/-- C17 as the code has it: for every fact list, every edge of the fact graph
is kept in the collapsed graph with both endpoints replaced by their component
ids, also when the two ids are equal, and every edge of the collapsed graph
comes from an edge of the fact graph in this way. -/
theorem collapse_keeps_edges (facts : List Atom) :
    (∀ v e, e ∈ edgesOf (astsGraph facts) v →
      (⟨e.type, componentAt
          (buildComponents (astsGraph facts) (buildOrder (astsGraph facts))).1 e.to_⟩ : Edge)
        ∈ edgesOf (ComparisonGraph facts)
          (componentAt (buildComponents (astsGraph facts) (buildOrder (astsGraph facts))).1 v)) ∧
    (∀ j y, y ∈ edgesOf (ComparisonGraph facts) j →
      ∃ v e, e ∈ edgesOf (astsGraph facts) v ∧
        componentAt (buildComponents (astsGraph facts) (buildOrder (astsGraph facts))).1 v = j ∧
        y = ⟨e.type, componentAt
          (buildComponents (astsGraph facts) (buildOrder (astsGraph facts))).1 e.to_⟩) := by
  constructor
  · intro v e he
    have hv : v < (astsGraph facts).vertexes.length := by
      rw [(astsGraph_wf facts).1]; exact edgesOf_lt _ v e he
    exact (build_edges_mem (astsGraph facts) _ _).2
      ⟨componentAt_lt facts v hv, v, hv, rfl, e, he, rfl⟩
  · intro j y hy
    obtain ⟨_, v, _, hvj, e, he, hye⟩ := (build_edges_mem (astsGraph facts) j y).1 hy
    exact ⟨v, e, he, hvj, hye⟩

theorem build_edges_length (g : Graph) :
    (BuildGraphFromAstsGraph g).edges.length = (buildComponents g (buildOrder g)).2 := by
  unfold BuildGraphFromAstsGraph
  simp only [collapse_loop2]
  rw [collapse_outer_length, (collapse_loop1 g _ _ _).2.2]
  simp

/-- The member lists written by the first loop of the collapse. -/
theorem collapse_loop1_vertexes (g : Graph) (cs : List (Option Nat)) (l : List (Nat × Nat))
    (r : Graph) :
    (l.foldl
      (fun r p =>
        { r with
          ast_hash_to_component := mapAssign r.ast_hash_to_component p.1 (componentAt cs p.2)
          vertexes := appendAt r.vertexes (componentAt cs p.2) (astsOf g p.2) })
      r).vertexes
      = l.foldl (fun vs p => appendAt vs (componentAt cs p.2) (astsOf g p.2)) r.vertexes := by
  induction l generalizing r with
  | nil => rfl
  | cons p rest ih => simp only [List.foldl_cons]; rw [ih]

theorem appendAt_asts (vs : List EqualComponent) (i j : Nat) (xs : List Ast) :
    ((appendAt vs i xs)[j]?.getD ⟨[]⟩).asts
      = (vs[j]?.getD ⟨[]⟩).asts ++ (if i = j ∧ j < vs.length then xs else []) := by
  induction vs generalizing i j with
  | nil => simp [appendAt]
  | cons c rest ih =>
    cases i with
    | zero =>
      cases j with
      | zero => simp [appendAt]
      | succ j => simp [appendAt]
    | succ i =>
      cases j with
      | zero => simp [appendAt]
      | succ j =>
        simp only [appendAt, List.getElem?_cons_succ, List.length_cons]
        rw [ih i j]
        simp

theorem collapse_asts_nonempty (g : Graph) (cs : List (Option Nat)) (l : List (Nat × Nat))
    (vs : List EqualComponent) (j : Nat)
    (h : (vs[j]?.getD ⟨[]⟩).asts ≠ [] ∨
      ∃ p ∈ l, componentAt cs p.2 = j ∧ j < vs.length ∧ astsOf g p.2 ≠ []) :
    ((l.foldl (fun vs p => appendAt vs (componentAt cs p.2) (astsOf g p.2)) vs)[j]?.getD
      ⟨[]⟩).asts ≠ [] := by
  induction l generalizing vs with
  | nil =>
    rcases h with h | ⟨p, hp, _⟩
    · exact h
    · exact absurd hp (List.not_mem_nil _)
  | cons q rest ih =>
    simp only [List.foldl_cons]
    apply ih
    rcases h with h | ⟨p, hp, h1, h2, h3⟩
    · left
      rw [appendAt_asts]
      intro hc
      exact h (List.append_eq_nil.1 hc).1
    · rcases List.mem_cons.1 hp with hq | hq
      · subst hq
        left
        rw [appendAt_asts]
        simp only [h1, h2, and_self, if_true]
        intro hc
        exact h3 (List.append_eq_nil.1 hc).2
      · right
        exact ⟨p, hq, h1, by rw [appendAt_length]; exact h2, h3⟩

/-- C20 (invariant of the collapsed graph): for every fact list, every edge of
the collapsed graph goes from a class id `i` to a class id `j` with `j <= i`;
the edge vector is as long as the vertex vector, and the class ids of the
edges and of the lookup index are below that length; every class has a
non-empty member list; and the collapsed graph without its self edges has no
directed cycle. -/
theorem collapsed_graph_invariant (facts : List Atom) :
    (∀ i e, e ∈ edgesOf (ComparisonGraph facts) i → e.to_ ≤ i) ∧
    (ComparisonGraph facts).edges.length = (ComparisonGraph facts).vertexes.length ∧
    (∀ i e, e ∈ edgesOf (ComparisonGraph facts) i →
      i < (ComparisonGraph facts).vertexes.length ∧
      e.to_ < (ComparisonGraph facts).vertexes.length) ∧
    (∀ k c, (ComparisonGraph facts).ast_hash_to_component.lookup k = some c →
      c < (ComparisonGraph facts).vertexes.length) ∧
    (∀ c, c < (ComparisonGraph facts).vertexes.length →
      astsOf (ComparisonGraph facts) c ≠ []) ∧
    (∀ i, ¬ Relation.TransGen
      (fun a b => gEdge (ComparisonGraph facts) a b ∧ a ≠ b) i i) := by
  obtain ⟨hinv, hass, hcl⟩ := buildComponents_any (astsGraph facts) (astsGraph_edge_lt facts)
  have hwf := astsGraph_wf facts
  have hlen : (ComparisonGraph facts).vertexes.length
      = (buildComponents (astsGraph facts) (buildOrder (astsGraph facts))).2 :=
    build_vertexes_length _
  have hdesc : ∀ i e, e ∈ edgesOf (ComparisonGraph facts) i → e.to_ ≤ i := by
    intro i e he
    obtain ⟨_, v, hv, hvi, e0, he0, hee⟩ := (build_edges_mem (astsGraph facts) i e).1 he
    have hw : e0.to_ < (astsGraph facts).vertexes.length := hwf.2.2.2.2.2 v e0 he0
    obtain ⟨a, ha⟩ := hass v hv
    obtain ⟨b, hb⟩ := hass e0.to_ hw
    rw [hee, ← hvi, componentAt_of_some ha]
    show componentAt _ e0.to_ ≤ a
    rw [componentAt_of_some hb]
    exact hinv.2.2.1 v e0.to_ a b ha ⟨e0, he0, rfl⟩ hb
  refine ⟨hdesc, ?_, ?_, ?_, ?_, ?_⟩
  · rw [hlen]; exact build_edges_length _
  · intro i e he
    obtain ⟨hi, v, hv, hvi, e0, he0, hee⟩ := (build_edges_mem (astsGraph facts) i e).1 he
    rw [hlen]
    refine ⟨hi, ?_⟩
    rw [hee]
    exact componentAt_lt facts e0.to_ (hwf.2.2.2.2.2 v e0 he0)
  · intro k c hk
    have h1 := build_lookup (astsGraph facts) hwf.2.1 k
    change (ComparisonGraph facts).ast_hash_to_component.lookup k = _ at h1
    rw [hk] at h1
    cases hl : (astsGraph facts).ast_hash_to_component.lookup k with
    | none => rw [hl] at h1; simp at h1
    | some i =>
      rw [hl] at h1
      simp only [Option.map_some', Option.some.injEq] at h1
      rw [h1, hlen]
      exact componentAt_lt facts i (hwf.2.2.1 _ (mem_of_lookup _ _ _ hl))
  · intro c hc
    rw [hlen] at hc
    obtain ⟨r, hr⟩ := hinv.2.2.2.2 c hc
    have hrn : r < (astsGraph facts).vertexes.length := by
      by_contra hcon
      rw [List.getElem?_eq_none (by omega)] at hr
      simp at hr
    obtain ⟨k, hk⟩ := hwf.2.2.2.1 r hrn
    unfold astsOf ComparisonGraph BuildGraphFromAstsGraph
    simp only [collapse_loop2, List.getD_eq_getElem?_getD]
    rw [collapse_loop1_vertexes]
    apply collapse_asts_nonempty
    right
    exact ⟨(k, r), hk, componentAt_of_some hr, by simpa using hc, hwf.2.2.2.2.1 r hrn⟩
  · have hlt : ∀ a b, Relation.TransGen
        (fun a b => gEdge (ComparisonGraph facts) a b ∧ a ≠ b) a b → b < a := by
      intro a b hab
      induction hab with
      | single h =>
        obtain ⟨⟨e, he, heb⟩, hne⟩ := h
        have := hdesc _ e he
        omega
      | tail _ h ih =>
        obtain ⟨⟨e, he, heb⟩, hne⟩ := h
        have := hdesc _ e he
        omega
    intro i hi
    exact lt_irrefl _ (hlt i i hi)

/-! ## Skipped facts -/

theorem get_index_collides (g : Graph) (x : Ast) (h : Collides g x) :
    get_index x g = (none, g) := by
  obtain ⟨i, hi, hno⟩ := h
  unfold get_index
  simp only [hi]
  have hany : (astsOf g i).any
      (fun constraint_ast =>
        constraint_ast.treeHash == x.treeHash && constraint_ast.columnName == x.columnName)
      = false := by
    rw [List.any_eq_false]
    intro c hc
    have := hno c hc
    simpa using this
  simp [hany]

theorem get_index_asts (g : Graph) (x : Ast) (i : Nat) (hi : i < g.vertexes.length) :
    astsOf (get_index x g).2 i = astsOf g i := by
  cases hl : g.ast_hash_to_component.lookup x.treeHash with
  | some j => rw [(get_index_of_some x g j hl).1]
  | none =>
    rw [get_index_of_none x g hl]
    unfold astsOf
    simp only [List.getD_eq_getElem?_getD]
    rw [List.getElem?_append_left hi]

theorem get_index_length (g : Graph) (x : Ast) :
    g.vertexes.length ≤ (get_index x g).2.vertexes.length ∧
    (get_index x g).2.vertexes.length ≤ g.vertexes.length + 1 ∧
    (g.ast_hash_to_component.lookup x.treeHash ≠ none → (get_index x g).2 = g) := by
  cases hl : g.ast_hash_to_component.lookup x.treeHash with
  | some j =>
    rw [(get_index_of_some x g j hl).1]
    exact ⟨le_refl _, by omega, fun _ => rfl⟩
  | none =>
    rw [get_index_of_none x g hl]
    exact ⟨by simp, by simp, fun h => absurd rfl h⟩

theorem collides_get_index (g : Graph) (hg : WfGraph g) (x y : Ast) (h : Collides g x) :
    Collides (get_index y g).2 x := by
  obtain ⟨i, hi, hno⟩ := h
  have hin : i < g.vertexes.length := hg.2.2.1 _ (mem_of_lookup _ _ _ hi)
  refine ⟨i, (get_index_wf g hg y).2.1 _ _ hi, ?_⟩
  rw [get_index_asts g y i hin]
  exact hno

/-- The lambda `get_index` returns `bad_term` exactly for a colliding
expression. -/
theorem get_index_none_iff (g : Graph) (x : Ast) :
    (get_index x g).1 = none ↔ Collides g x := by
  constructor
  · intro h
    cases hl : g.ast_hash_to_component.lookup x.treeHash with
    | none => rw [get_index_of_none x g hl] at h; simp at h
    | some i =>
      refine ⟨i, hl, ?_⟩
      intro c hc hcx
      unfold get_index at h
      simp only [hl] at h
      have hany : (astsOf g i).any
          (fun constraint_ast =>
            constraint_ast.treeHash == x.treeHash && constraint_ast.columnName == x.columnName)
          = true := by
        rw [List.any_eq_true]
        exact ⟨c, hc, by simp [hcx.1, hcx.2]⟩
      simp [hany] at h
  · intro h
    rw [get_index_collides g x h]

theorem get_index_snd_of_none (g : Graph) (x : Ast) (h : (get_index x g).1 = none) :
    (get_index x g).2 = g := by
  rw [get_index_collides g x ((get_index_none_iff g x).1 h)]

theorem get_index_eq_withVertex (g : Graph) (x : Ast)
    (h : g.ast_hash_to_component.lookup x.treeHash = none) :
    get_index x g = (some g.vertexes.length, withVertex g x) :=
  get_index_of_none x g h

/-- C18 as the code has it: when the constructor processes a fact one of whose
operands, at the moment `get_index` resolves it, has the hash of a stored
expression and is not exactly equal to it (the first resolved operand against
the graph of the earlier facts, or the second one against that graph after the
first operand was resolved), then no edge list changes and every index entry
and member list is kept; if the hashes of both operands were stored before,
the fact graph is identical and the constructor builds the same graph as from
the list with that fact removed; otherwise the fact graph after the fact is
the graph before it with exactly one new vertex, for the first resolved
operand if its hash was not stored, else for the second one. -/
theorem skipped_fact_graph (pre : List Atom) (f : Atom)
    (h : Collides (astsGraph pre) (normalizeAtom f).left ∨
      Collides (get_index (normalizeAtom f).left (astsGraph pre)).2 (normalizeAtom f).right) :
    (∀ u, edgesOf (astsGraph (pre ++ [f])) u = edgesOf (astsGraph pre) u) ∧
    (∀ k i, (astsGraph pre).ast_hash_to_component.lookup k = some i →
      (astsGraph (pre ++ [f])).ast_hash_to_component.lookup k = some i) ∧
    (∀ i, i < (astsGraph pre).vertexes.length →
      astsOf (astsGraph (pre ++ [f])) i = astsOf (astsGraph pre) i) ∧
    ((astsGraph pre).ast_hash_to_component.lookup (normalizeAtom f).left.treeHash ≠ none →
      (astsGraph pre).ast_hash_to_component.lookup (normalizeAtom f).right.treeHash ≠ none →
      astsGraph (pre ++ [f]) = astsGraph pre ∧
      ∀ post, ComparisonGraph (pre ++ f :: post) = ComparisonGraph (pre ++ post)) ∧
    ((astsGraph pre).ast_hash_to_component.lookup (normalizeAtom f).left.treeHash = none →
      astsGraph (pre ++ [f]) = withVertex (astsGraph pre) (normalizeAtom f).left) ∧
    ((astsGraph pre).ast_hash_to_component.lookup (normalizeAtom f).left.treeHash ≠ none →
      (astsGraph pre).ast_hash_to_component.lookup (normalizeAtom f).right.treeHash = none →
      astsGraph (pre ++ [f]) = withVertex (astsGraph pre) (normalizeAtom f).right) := by
  have hg := astsGraph_wf pre
  have hstep : astsGraph (pre ++ [f]) = addAtom (astsGraph pre) f := by
    rw [astsGraph_append]; rfl
  have hpost : ∀ post, astsGraph (pre ++ f :: post)
      = post.foldl addAtom (addAtom (astsGraph pre) f) := by
    intro post; rw [astsGraph_append]; rfl
  have hskip : (get_index (normalizeAtom f).left (astsGraph pre)).1 = none ∨
      (get_index (normalizeAtom f).right
        (get_index (normalizeAtom f).left (astsGraph pre)).2).1 = none := by
    rcases h with h | h
    · exact Or.inl ((get_index_none_iff _ _).2 h)
    · exact Or.inr ((get_index_none_iff _ _).2 h)
  have hadd := addAtom_skipped (astsGraph pre) f hskip
  obtain ⟨w1, k1, e1, _, _⟩ := get_index_wf (astsGraph pre) hg (normalizeAtom f).left
  obtain ⟨_, k2, e2, _, _⟩ :=
    get_index_wf (get_index (normalizeAtom f).left (astsGraph pre)).2 w1 (normalizeAtom f).right
  obtain ⟨l1, _, s1⟩ := get_index_length (astsGraph pre) (normalizeAtom f).left
  refine ⟨?_, ?_, ?_, ?_, ?_, ?_⟩
  · intro u
    rw [hstep, hadd]
    exact (e2 u).trans (e1 u)
  · intro k i hki
    rw [hstep, hadd]
    exact k2 k i (k1 k i hki)
  · intro i hi
    rw [hstep, hadd, get_index_asts _ _ i (by omega)]
    exact get_index_asts _ _ i hi
  · intro hl hr
    have h1 := s1 hl
    have h2 := (get_index_length (astsGraph pre) (normalizeAtom f).right).2.2 hr
    have hsame : addAtom (astsGraph pre) f = astsGraph pre := by
      rw [hadd, h1, h2]
    refine ⟨by rw [hstep, hsame], ?_⟩
    intro post
    unfold ComparisonGraph
    rw [hpost post, hsame, astsGraph_append]
  · intro hl
    have h1 := get_index_eq_withVertex (astsGraph pre) (normalizeAtom f).left hl
    have hr : (get_index (normalizeAtom f).right
        (get_index (normalizeAtom f).left (astsGraph pre)).2).1 = none := by
      rcases hskip with h0 | h0
      · rw [h1] at h0; simp at h0
      · exact h0
    rw [hstep, hadd, get_index_snd_of_none _ _ hr, h1]
  · intro hl hr
    rw [hstep, hadd, s1 hl, get_index_eq_withVertex _ _ hr]

/-- C18 at the single fact `a < z` with `z` of the hash of `a` and another
column name: `z` collides with the vertex just made for `a`, the fact is
skipped and the fact graph is the empty graph with a vertex for `a`. -/
theorem skipped_fact_graph_witness :
    astsGraph ([] ++ [(⟨.less, exprA, exprA2⟩ : Atom)])
      = withVertex (astsGraph []) (normalizeAtom ⟨.less, exprA, exprA2⟩).left :=
  (skipped_fact_graph [] ⟨.less, exprA, exprA2⟩
    (Or.inr ⟨0, by decide, by decide⟩)).2.2.2.2.1 (by decide)

end DB
